import Mathlib

/-!
Verification of the dit repository's learning/inference core against its
natural-language specification.

The Go source is shallowly embedded: slices of float64 become lists of real
numbers (or functions into the reals), maps become association lists, and the
float arithmetic is read exactly over the reals, which is the reading the
specification itself fixes ("exact over the reals; within 1e-6 in floating
point").  Loops become structural recursions or folds over the same index
ranges the source iterates.
-/

namespace Dit

/-! ## Sparse vectors (src/internal/vectorizer/sparse.go)

The Go struct keeps two parallel slices `Indices` and `Values` with the
documented invariant that they have equal length; the embedding zips the two
slices into one list of entries, so one list position corresponds to one
index/value pair of the source. -/

/-- Embedding of the Go struct SparseVector: `entries` is the zip of the
parallel slices Indices and Values, `dim` is Dim. -/
structure SparseVector where
  entries : List (ℕ × ℝ)
  dim : ℕ

/-- Entry-list update used by SparseVector.Set: scan for an existing index and
overwrite it, otherwise append at the end (the source scans Indices and
overwrites Values at the match position). -/
def setEntry : List (ℕ × ℝ) → ℕ → ℝ → List (ℕ × ℝ)
  | [], idx, v => [(idx, v)]
  | (i, x) :: rest, idx, v =>
      if i = idx then (i, v) :: rest else (i, x) :: setEntry rest idx v

/-- Embedding of SparseVector.Set. -/
def SparseVector.set (sv : SparseVector) (idx : ℕ) (val : ℝ) : SparseVector :=
  { sv with entries := setEntry sv.entries idx val }

/-- Embedding of NewSparseVector. -/
def newSparseVector (dim : ℕ) : SparseVector := ⟨[], dim⟩

/-- Embedding of SparseVector.Dot against a dense slice of length `len` whose
element at position `i` is `dense i`: entries whose index is at least the
dense length are skipped, as in the source. -/
noncomputable def SparseVector.dot (sv : SparseVector) (dense : ℕ → ℝ) (len : ℕ) : ℝ :=
  (sv.entries.map (fun e => if e.1 < len then e.2 * dense e.1 else 0)).sum

/-- Embedding of SparseVector.Nnz. -/
def SparseVector.nnz (sv : SparseVector) : ℕ := sv.entries.length

/-- Embedding of SparseVector.L2Norm: square root of the sum of squared
values. -/
noncomputable def SparseVector.l2norm (sv : SparseVector) : ℝ :=
  Real.sqrt ((sv.entries.map (fun e => e.2 * e.2)).sum)

/-- Embedding of ConcatSparse: indices of each vector are shifted by the sum
of the dimensions of the vectors before it, and the result dimension is the
sum of all dimensions. -/
def concatSparse (vectors : List SparseVector) : SparseVector :=
  { entries :=
      (vectors.foldl
        (fun acc v =>
          (acc.1 ++ v.entries.map (fun e => (e.1 + acc.2, e.2)), acc.2 + v.dim))
        (([] : List (ℕ × ℝ)), 0)).1
    dim := (vectors.map SparseVector.dim).sum }

/-! ## TF-IDF transform value stage (src/internal/vectorizer/tfidf.go)

TfidfVectorizer.Transform first obtains the count vector of the document,
multiplies each stored value by the IDF weight of its column (entries whose
column is outside the IDF array keep their value), then L2-normalizes unless
the norm is zero.  For the norm property (claim C6) only the value stage
matters, so it is factored out here exactly as the source performs it on the
count vector it received. -/

/-- IDF weighting loop of TfidfVectorizer.Transform: each entry value is
multiplied by the IDF of its column when the column is inside the IDF array. -/
noncomputable def applyIdf (sv : SparseVector) (idf : List ℝ) : SparseVector :=
  { sv with
    entries := sv.entries.map
      (fun e => if e.1 < idf.length then (e.1, e.2 * idf.getD e.1 0) else e) }

/-- Normalization tail of TfidfVectorizer.Transform: compute the L2 norm and
divide every value by it when the norm is positive; otherwise the vector is
returned unchanged. -/
noncomputable def l2normalize (sv : SparseVector) : SparseVector :=
  let norm := sv.l2norm
  if 0 < norm then
    { sv with entries := sv.entries.map (fun e => (e.1, e.2 / norm)) }
  else sv

/-- Value stage of TfidfVectorizer.Transform applied to the count vector of
the document: IDF weighting followed by L2 normalization. -/
noncomputable def tfidfTransformValues (countVec : SparseVector) (idf : List ℝ) : SparseVector :=
  l2normalize (applyIdf countVec idf)

/-! ## Text utilities (src/internal/textutil/textutil.go)

The tokenizer regex `[\p{L}\p{N}_]+` takes the maximal runs of letter, digit
or underscore characters; the Unicode letter and number classes are embedded
through the character classifier below (the corpora quantified over here are
made of such characters). -/

/-- Character class of the tokenizer regex: a letter, a digit or an
underscore. -/
def isWordChar (c : Char) : Bool := c.isAlpha || c.isDigit || c = '_'

/-- Accumulator pass splitting a character list into maximal runs of word
characters: `acc` holds the current run, in reverse. -/
def tokenizeGo : List Char → List Char → List (List Char)
  | [], acc => if acc.isEmpty then [] else [acc.reverse]
  | c :: cs, acc =>
      if isWordChar c then tokenizeGo cs (c :: acc)
      else if acc.isEmpty then tokenizeGo cs [] else acc.reverse :: tokenizeGo cs []

/-- Maximal runs of word characters in a character list, in order: the
embedding of `FindAllString` for the token regex. -/
def tokenizeList (l : List Char) : List (List Char) := tokenizeGo l []

/-- Embedding of textutil.Tokenize. -/
def tokenize (s : String) : List String :=
  (tokenizeList s.toList).map (fun cs => String.mk cs)

/-- One n-gram of tokens starting at `i`, joined by a space, as the source's
strings.Join of the token slice. -/
def sliceJoin (tokens : List String) (i n : ℕ) : String :=
  " ".intercalate ((tokens.drop i).take n)

/-- Embedding of textutil.TokenNgrams: n runs from minN while it stays within
maxN and the token count; i runs over all start positions. -/
def tokenNgrams (tokens : List String) (minN maxN : ℕ) : List String :=
  ((List.range (maxN + 1)).filter (fun n => decide (minN ≤ n ∧ n ≤ tokens.length))).flatMap
    (fun n => (List.range (tokens.length - n + 1)).map (fun i => sliceJoin tokens i n))

/-- Embedding of textutil.Ngrams (character n-grams of a rune slice). -/
def charNgrams (s : List Char) (minN maxN : ℕ) : List String :=
  ((List.range (maxN + 1)).filter (fun n => decide (minN ≤ n ∧ n ≤ s.length))).flatMap
    (fun n => (List.range (s.length - n + 1)).map (fun i => String.mk ((s.drop i).take n)))

/-- Embedding of strings.ToLower (character-wise lowering). -/
def strToLower (s : String) : String := String.mk (s.toList.map Char.toLower)

/-- Lexicographic string comparison used by the embedded sort.Strings:
strings compare by their character lists (UTF-8 byte order and code-point
order agree), which is propositionally the String order by
String.le_iff_toList_le. -/
def strLe (a b : String) : Prop := a.toList ≤ b.toList

instance : DecidableRel strLe := fun a b => inferInstanceAs (Decidable (a.toList ≤ b.toList))

instance : IsTotal String strLe := ⟨fun a b => le_total a.toList b.toList⟩

instance : IsTrans String strLe := ⟨fun _ _ _ h1 h2 => le_trans h1 h2⟩

/-! ## CountVectorizer (src/internal/vectorizer/count.go)

The vocabulary map `map[string]int` is embedded as an association list in
ascending index order; the Go `for i, term := range terms` assignment loop is
the `assignIndices` recursion below. -/

/-- Embedding of the CountVectorizer struct.  The map field Vocabulary is the
association list `vocabulary`. -/
structure CountVectorizer where
  vocabulary : List (String × ℕ)
  ngramRange : ℕ × ℕ
  binary : Bool
  analyzer : String
  minDF : ℕ

/-- Embedding of charWbNgrams: tokenize, pad each token with one leading and
one trailing space, and take character n-grams of each padded token. -/
def charWbNgrams (text : List Char) (minN maxN : ℕ) : List String :=
  (tokenizeList text).flatMap (fun token => charNgrams (' ' :: (token ++ [' '])) minN maxN)

/-- Embedding of CountVectorizer.analyze: lowercase, then char_wb n-grams or
word token n-grams according to the analyzer. -/
def CountVectorizer.analyze (cv : CountVectorizer) (text : String) : List String :=
  let lower := strToLower text
  if cv.analyzer = "char_wb" then
    charWbNgrams lower.toList cv.ngramRange.1 cv.ngramRange.2
  else
    tokenNgrams (tokenize lower) cv.ngramRange.1 cv.ngramRange.2

/-- Document frequency of a term over a corpus: how many documents contain the
term among their analyzed features.  The source counts this with a per-document
`seen` set so each document contributes at most once. -/
def docFreq (cv : CountVectorizer) (corpus : List String) (term : String) : ℕ :=
  corpus.countP (fun doc => decide (term ∈ cv.analyze doc))

/-- The `vocab[term] = i` assignment loop over the sorted term slice. -/
def assignIndices : List String → ℕ → List (String × ℕ)
  | [], _ => []
  | t :: rest, k => (t, k) :: assignIndices rest (k + 1)

/-- The sorted term list built by CountVectorizer.Fit: the distinct analyzed
terms whose document frequency reaches minDF, in lexicographic order
(sort.Strings). -/
def fitTerms (cv : CountVectorizer) (corpus : List String) : List String :=
  List.insertionSort strLe
    (((corpus.flatMap cv.analyze).dedup).filter
      (fun t => decide (cv.minDF ≤ docFreq cv corpus t)))

/-- Embedding of CountVectorizer.Fit. -/
def CountVectorizer.fit (cv : CountVectorizer) (corpus : List String) : CountVectorizer :=
  { cv with vocabulary := assignIndices (fitTerms cv corpus) 0 }

/-- Embedding of CountVectorizer.VocabSize. -/
def CountVectorizer.vocabSize (cv : CountVectorizer) : ℕ := cv.vocabulary.length

/-- Embedding of CountVectorizer.Transform.  The counts map of the source
holds, for each vocabulary column hit by the document, the number of feature
occurrences mapped to it; the Set loop then stores 1.0 in binary mode and the
count otherwise.  The embedding iterates the hit columns in first-appearance
order (the Go map iteration order is unspecified; the resulting entry set is
the same). -/
noncomputable def CountVectorizer.transform (cv : CountVectorizer) (text : String) : SparseVector :=
  let dim := cv.vocabulary.length
  let idxs := (cv.analyze text).filterMap (fun f => cv.vocabulary.lookup f)
  idxs.dedup.foldl
    (fun sv idx => sv.set idx (if cv.binary then 1 else (idxs.count idx : ℝ)))
    (newSparseVector dim)

/-! ## TfidfVectorizer (src/internal/vectorizer/tfidf.go) -/

/-- Embedding of the TfidfVectorizer struct; the stop-word set map is the
list `stopWords`. -/
structure TfidfVectorizer where
  countVec : CountVectorizer
  idf : List ℝ
  stopWords : List String

/-- Embedding of TfidfVectorizer.filterText.  The source returns the text
unchanged when there are no stop words or the analyzer is char_wb, and — per
its own comment deferring the filtering to the vocabulary — also returns the
text unchanged in the remaining word-analyzer branch. -/
def TfidfVectorizer.filterText (tv : TfidfVectorizer) (text : String) : String :=
  if tv.stopWords.isEmpty ∨ tv.countVec.analyzer = "char_wb" then text
  else text

/-- Embedding of TfidfVectorizer.filterCorpus. -/
def TfidfVectorizer.filterCorpus (tv : TfidfVectorizer) (corpus : List String) : List String :=
  if tv.stopWords.isEmpty then corpus
  else if tv.countVec.analyzer = "char_wb" then corpus
  else corpus.map tv.filterText

/-- Document frequency per fitted column, as accumulated by the Fit loop that
transforms every document and bumps `df[idx]` for each index present (each
transform lists a column at most once). -/
noncomputable def tfidfColumnDF (cv : CountVectorizer) (docs : List String) (idx : ℕ) : ℕ :=
  docs.countP (fun doc => (cv.transform doc).entries.any (fun e => e.1 = idx))

/-- Embedding of TfidfVectorizer.Fit: fit the wrapped CountVectorizer on the
filtered corpus and compute the smoothed IDF `log((1+n)/(1+df)) + 1` per
column. -/
noncomputable def TfidfVectorizer.fit (tv : TfidfVectorizer) (corpus : List String) :
    TfidfVectorizer :=
  let filtered := tv.filterCorpus corpus
  let cv := tv.countVec.fit filtered
  let nDocs : ℝ := (filtered.length : ℝ)
  { tv with
    countVec := cv
    idf := (List.range cv.vocabSize).map
      (fun i => Real.log ((1 + nDocs) / (1 + (tfidfColumnDF cv filtered i : ℝ))) + 1) }

/-- Embedding of TfidfVectorizer.Transform: filter the text, count-transform
it, weight by IDF and L2-normalize. -/
noncomputable def TfidfVectorizer.transform (tv : TfidfVectorizer) (text : String) : SparseVector :=
  tfidfTransformValues (tv.countVec.transform (tv.filterText text)) tv.idf

/-- Embedding of TfidfVectorizer.VocabSize. -/
def TfidfVectorizer.vocabSize (tv : TfidfVectorizer) : ℕ := tv.countVec.vocabSize

/-! ## DictVectorizer (src/unnamed/part_005, package vectorizer)

The Go `any` feature values are embedded as the FeatVal sum type covering the
cases the source distinguishes (string, bool, integer, float; int and int64
convert identically). -/

/-- Feature value type: the cases of the Go type switch. -/
inductive FeatVal where
  | str (s : String)
  | boolean (b : Bool)
  | int (n : ℤ)
  | float (x : ℝ)

/-- Embedding of DictVectorizer.featureKey: string values give the compound
key `name=value`, everything else the bare name. -/
def featureKey (name : String) : FeatVal → String
  | .str s => name ++ "=" ++ s
  | _ => name

/-- Embedding of DictVectorizer.featureValue. -/
noncomputable def featureValue : FeatVal → ℝ
  | .str _ => 1
  | .boolean b => if b then 1 else 0
  | .int n => (n : ℝ)
  | .float x => x

/-- Embedding of the DictVectorizer struct with its FeatureNames slice and
FeatureIndex map (as an association list). -/
structure DictVectorizer where
  featureNames : List String
  featureIndex : List (String × ℕ)

/-- Embedding of DictVectorizer.Fit: collect the distinct derived keys,
sort them, and index them in order. -/
def DictVectorizer.fit (data : List (List (String × FeatVal))) : DictVectorizer :=
  let names := List.insertionSort strLe
    ((data.flatMap (fun d => d.map (fun kv => featureKey kv.1 kv.2))).dedup)
  { featureNames := names, featureIndex := assignIndices names 0 }

/-- Embedding of DictVectorizer.VocabSize. -/
def DictVectorizer.vocabSize (dv : DictVectorizer) : ℕ := dv.featureNames.length

/-- Embedding of DictVectorizer.Transform: derive each key, drop it when the
fitted index has no entry for it, otherwise set its value. -/
noncomputable def DictVectorizer.transform (dv : DictVectorizer)
    (d : List (String × FeatVal)) : SparseVector :=
  d.foldl
    (fun sv kv =>
      match dv.featureIndex.lookup (featureKey kv.1 kv.2) with
      | some idx => sv.set idx (featureValue kv.2)
      | none => sv)
    (newSparseVector dv.featureNames.length)


/-- The set the specification describes: distinct analyzed n-grams whose
document frequency reaches minDF. -/
def analyzedTermSet (cv : CountVectorizer) (corpus : List String) : Finset String :=
  (corpus.flatMap cv.analyze).toFinset.filter (fun t => cv.minDF ≤ docFreq cv corpus t)

/-! ## OWL-QN backtracking line search (src/crf/crf.go, owlqnLineSearch)

Weight vectors of length n are embedded as functions on ℕ read below n. -/

/-- Embedding of the source helper dot: sum of products over the first n
coordinates. -/
noncomputable def dotFn (a b : ℕ → ℝ) (n : ℕ) : ℝ :=
  ∑ i in Finset.range n, a i * b i

/-- The trial point of one line-search iteration: `w + step * dir` followed by
the orthant projection that zeroes every coordinate whose sign flipped,
applied only when c1 > 0 (coordinates at or beyond n stay 0, as the Go slice
has length n). -/
noncomputable def lineSearchW (w dir : ℕ → ℝ) (n : ℕ) (c1 : ℝ) (step : ℝ) : ℕ → ℝ :=
  fun i =>
    if i < n then
      if 0 < c1 ∧ (w i + step * dir i) * w i < 0 then 0 else w i + step * dir i
    else 0

/-- The 20-trial backtracking loop of owlqnLineSearch: accept the current step
when the Armijo condition holds, otherwise halve it; when the trials run out
the current (already halved) step is returned. -/
noncomputable def lineSearchLoop (w dir : ℕ → ℝ) (n : ℕ) (c1 fVal dirDeriv : ℝ)
    (objFunc : (ℕ → ℝ) → ℝ) : ℕ → ℝ → ℝ
  | 0, step => step
  | trials + 1, step =>
      if objFunc (lineSearchW w dir n c1 step) ≤ fVal + 1e-4 * step * dirDeriv then step
      else lineSearchLoop w dir n c1 fVal dirDeriv objFunc trials (step * 0.5)

/-- Embedding of owlqnLineSearch: return 0 when the directional derivative of
the pseudo-gradient along the direction is nonnegative, otherwise run the
20-trial backtracking loop from step 1. -/
noncomputable def owlqnLineSearch (w dir : ℕ → ℝ) (fVal : ℝ) (pg : ℕ → ℝ)
    (objFunc : (ℕ → ℝ) → ℝ) (n : ℕ) (c1 : ℝ) : ℝ :=
  let dirDeriv := dotFn dir pg n
  if 0 ≤ dirDeriv then 0
  else lineSearchLoop w dir n c1 fVal dirDeriv objFunc 20 1

/-! ## CRF alphabets, model shell and empty training input (claim C4)

From src/crf/crf.go: Alphabet, the alphabet builders, the weight layout of
Model, and the initialization part of Train.  Per-position attribute maps are
embedded as association lists. -/

/-- Embedding of the crf Alphabet struct. -/
structure Alphabet where
  toID : List (String × ℕ)
  toStr : List String

/-- Embedding of NewAlphabet. -/
def newAlphabet : Alphabet := ⟨[], []⟩

/-- Embedding of Alphabet.Add restricted to its state effect (the builders
discard the returned id): append the string when it is not yet present. -/
def Alphabet.add (a : Alphabet) (s : String) : Alphabet :=
  match a.toID.lookup s with
  | some _ => a
  | none => { toID := a.toID ++ [(s, a.toStr.length)], toStr := a.toStr ++ [s] }

/-- Embedding of Alphabet.Size. -/
def Alphabet.size (a : Alphabet) : ℕ := a.toStr.length

/-- Embedding of the crf TrainingSequence struct (the group id plays no role
here). -/
structure TrainingSequence where
  features : List (List (String × ℝ))
  labels : List String

/-- Embedding of BuildLabelAlphabet. -/
def buildLabelAlphabet (sequences : List TrainingSequence) : Alphabet :=
  sequences.foldl (fun a seq => seq.labels.foldl Alphabet.add a) newAlphabet

/-- Embedding of BuildAttributeAlphabet. -/
def buildAttributeAlphabet (sequences : List TrainingSequence) : Alphabet :=
  sequences.foldl
    (fun a seq =>
      seq.features.foldl (fun a2 feats => feats.foldl (fun a3 kv => a3.add kv.1) a2) a)
    newAlphabet

/-- Embedding of the crf Model struct. -/
structure Model where
  labels : Alphabet
  attributes : Alphabet
  weights : List ℝ
  numLabels : ℕ

/-- Embedding of Model.TransOffset. -/
def Model.transOffset (m : Model) : ℕ := m.attributes.size * m.numLabels

/-- Embedding of Model.NumWeights. -/
def Model.numWeights (m : Model) : ℕ := m.transOffset + m.numLabels * m.numLabels

/-- Initialization prefix of crf.Train: build both alphabets from the
training sequences, set NumLabels, and allocate the zeroed weight vector.
On empty input Train then enters its optimization loop, whose first line
search returns step 0 over the zero-dimensional weight vector, and returns
this model unchanged — no error value exists in its signature. -/
def crfTrainInit (sequences : List TrainingSequence) : Model :=
  let labels := buildLabelAlphabet sequences
  let attributes := buildAttributeAlphabet sequences
  let m0 : Model :=
    { labels := labels, attributes := attributes, weights := [], numLabels := labels.size }
  { m0 with weights := List.replicate m0.numWeights 0 }

/-- The `totalDim := xData[0].Dim` access of TrainFormType
(src/classifier/formtype.go), embedded as a fallible index: on an empty form
list it is none, the Go panic. -/
def trainFormTypeTotalDim (xData : List SparseVector) : Option ℕ :=
  (xData.get? 0).map SparseVector.dim

/-! ## Multinomial logistic regression objective (src/classifier/formtype.go)

The flat parameter vector is embedded as a function on ℕ with the source
layout: class k owns the block starting at `k*(totalDim+1)`, its weights at
offsets 0..totalDim-1 and its intercept at offset totalDim. -/

/-- Embedding of the maxLogit scan of softmax: start from the first logit and
keep the larger value. -/
noncomputable def sliceMax (kk : ℕ) (f : ℕ → ℝ) : ℝ :=
  ((List.range kk).drop 1).foldl (fun m i => if f i > m then f i else m) (f 0)

/-- Embedding of the source softmax (numerically stabilized by subtracting
the maximum logit), read at index i. -/
noncomputable def softmaxStable (kk : ℕ) (logits : ℕ → ℝ) (i : ℕ) : ℝ :=
  Real.exp (logits i - sliceMax kk logits) /
    ∑ j in Finset.range kk, Real.exp (logits j - sliceMax kk logits)

/-- Mathematical softmax, the form the specification states. -/
noncomputable def softmaxMath (kk : ℕ) (logits : ℕ → ℝ) (i : ℕ) : ℝ :=
  Real.exp (logits i) / ∑ j in Finset.range kk, Real.exp (logits j)

/-- Logit of class k for one example: the sparse dot against the class-k
weight slice plus the class-k intercept, as in logRegObjective. -/
noncomputable def lrLogit (params : ℕ → ℝ) (totalDim : ℕ) (sv : SparseVector) (k : ℕ) : ℝ :=
  sv.dot (fun i => params (k * (totalDim + 1) + i)) totalDim
    + params (k * (totalDim + 1) + totalDim)

/-- Class probability of one example, by the stabilized softmax of the
logits. -/
noncomputable def lrProb (params : ℕ → ℝ) (numClasses totalDim : ℕ) (sv : SparseVector)
    (k : ℕ) : ℝ :=
  softmaxStable numClasses (lrLogit params totalDim sv) k

/-- Per-example loss of logRegObjective: minus the log of the gold-class
probability, or +100 when that probability is not positive. -/
noncomputable def lrExampleLoss (params : ℕ → ℝ) (numClasses totalDim : ℕ)
    (sv : SparseVector) (yj : ℕ) : ℝ :=
  if 0 < lrProb params numClasses totalDim sv yj then
    -Real.log (lrProb params numClasses totalDim sv yj)
  else 100

/-- The `softmax_k - indicator` factor of the gradient loop. -/
noncomputable def lrDiff (params : ℕ → ℝ) (numClasses totalDim : ℕ) (sv : SparseVector)
    (yj k : ℕ) : ℝ :=
  lrProb params numClasses totalDim sv k - (if k = yj then 1 else 0)

/-- The value stored at the first entry whose index is i, as found by the
inner `for vi, vidx := range Indices` scan (0 when no entry matches). -/
noncomputable def lrFirstVal (sv : SparseVector) (i : ℕ) : ℝ :=
  (((sv.entries.find? (fun e => e.1 == i)).map Prod.snd).getD 0)

/-- Total increment the nested index-scan adds at column i: one `diff *
Values[first match]` per occurrence of i among the indices. -/
noncomputable def lrGradInc (sv : SparseVector) (diff : ℝ) (i : ℕ) : ℝ :=
  ((sv.entries.countP (fun e => e.1 == i)) : ℝ) * (diff * lrFirstVal sv i)

/-- Gradient contribution of one example at flat coordinate p: for every
class k the scan adds `lrGradInc` at cell `offset + idx` (so coordinate p
receives the increment for column `p - offset` whenever p is at or past the
class offset), and the intercept cell `offset + totalDim` receives diff. -/
noncomputable def lrExampleGrad (params : ℕ → ℝ) (numClasses totalDim : ℕ)
    (sv : SparseVector) (yj : ℕ) (p : ℕ) : ℝ :=
  ∑ k in Finset.range numClasses,
    ((if k * (totalDim + 1) ≤ p then
        lrGradInc sv (lrDiff params numClasses totalDim sv yj k) (p - k * (totalDim + 1))
      else 0)
      + (if p = k * (totalDim + 1) + totalDim then
          lrDiff params numClasses totalDim sv yj k
        else 0))

/-- Embedding of logRegObjective: the summed loss plus the L2 penalty over
the weight cells of every class block (intercept cells excluded), and the
gradient function with the `w/C` regularization added at the weight cells. -/
noncomputable def logRegObjective (x : List SparseVector) (y : List ℕ) (params : ℕ → ℝ)
    (numClasses totalDim : ℕ) (c : ℝ) : ℝ × (ℕ → ℝ) :=
  (((x.zip y).map (fun ex => lrExampleLoss params numClasses totalDim ex.1 ex.2)).sum
      + ∑ k in Finset.range numClasses, ∑ i in Finset.range totalDim,
          0.5 * (1 / c) *
            (params (k * (totalDim + 1) + i) * params (k * (totalDim + 1) + i)),
    fun p =>
      ((x.zip y).map (fun ex => lrExampleGrad params numClasses totalDim ex.1 ex.2 p)).sum
      + ∑ k in Finset.range numClasses, ∑ i in Finset.range totalDim,
          (if p = k * (totalDim + 1) + i then (1 / c) * params p else 0))

/-- Coordinate i of a sparse example, as the specification reads `x`: the
value stored at index i (0 when absent; unique when the indices are
distinct). -/
noncomputable def entryVal (sv : SparseVector) (i : ℕ) : ℝ :=
  (sv.entries.map (fun e => if e.1 = i then e.2 else 0)).sum

/-! ## Scaled forward-backward (src/unnamed/part_011, package crf)

The [T][L] state-score and [L][L] transition-score matrices are embedded as
functions on ℕ together with the explicit sizes T and L; row t of alpha and
the scale factor of position t are computed jointly, exactly as the source
builds them row by row. -/

/-- Rows of alpha and the scale factors, built jointly by position.  At t = 0
the row is exp of the state scores normalized by its sum (the source divides
without a zero test there); at t+1 the row is the transition-weighted sum of
the previous row times exp of the state scores, normalized by its sum unless
that sum is zero, in which case the scale factor is 1. -/
noncomputable def fbAlphaScale (L : ℕ) (state trans : ℕ → ℕ → ℝ) : ℕ → (ℕ → ℝ) × ℝ
  | 0 =>
      let raw : ℕ → ℝ := fun y => Real.exp (state 0 y)
      let s : ℝ := ∑ y in Finset.range L, raw y
      let sc : ℝ := 1 / s
      (fun y => raw y * sc, sc)
  | t + 1 =>
      let prev := (fbAlphaScale L state trans t).1
      let raw : ℕ → ℝ := fun y =>
        (∑ yp in Finset.range L, prev yp * Real.exp (trans yp y))
          * Real.exp (state (t + 1) y)
      let s : ℝ := ∑ y in Finset.range L, raw y
      let sc : ℝ := if s = 0 then 1 else 1 / s
      (fun y => raw y * sc, sc)

/-- The scaled forward variable alpha[t][y]. -/
noncomputable def fbAlpha (L : ℕ) (state trans : ℕ → ℕ → ℝ) (t y : ℕ) : ℝ :=
  (fbAlphaScale L state trans t).1 y

/-- The scale factor scale[t]. -/
noncomputable def fbScale (L : ℕ) (state trans : ℕ → ℕ → ℝ) (t : ℕ) : ℝ :=
  (fbAlphaScale L state trans t).2

/-- The backward recursion indexed by the distance k from the last position:
beta[T-1] is the constant scale[T-1] row, and beta[t] for t = T-2-k combines
the next row with the transition and state scores at t+1 = T-1-k, scaled by
scale[t]. -/
noncomputable def fbBetaAux (T L : ℕ) (state trans : ℕ → ℕ → ℝ) : ℕ → ℕ → ℝ
  | 0 => fun _ => fbScale L state trans (T - 1)
  | k + 1 => fun y =>
      (∑ yn in Finset.range L,
          Real.exp (trans y yn) * Real.exp (state (T - 1 - k) yn)
            * fbBetaAux T L state trans k yn)
        * fbScale L state trans (T - 2 - k)

/-- The scaled backward variable beta[t][y]. -/
noncomputable def fbBeta (T L : ℕ) (state trans : ℕ → ℕ → ℝ) (t y : ℕ) : ℝ :=
  fbBetaAux T L state trans (T - 1 - t) y

/-- LogZ of the source: minus the sum of the logs of the scale factors. -/
noncomputable def fbLogZ (T L : ℕ) (state trans : ℕ → ℕ → ℝ) : ℝ :=
  -∑ t in Finset.range T, Real.log (fbScale L state trans t)

/-- Marginal P(y_t = y | x) of the source: alpha[t][y] * beta[t][y] /
scale[t]. -/
noncomputable def fbMarginal (T L : ℕ) (state trans : ℕ → ℕ → ℝ) (t y : ℕ) : ℝ :=
  fbAlpha L state trans t y * fbBeta T L state trans t y / fbScale L state trans t

/-- Embedding of the ForwardBackwardResult struct. -/
structure ForwardBackwardResult where
  logZ : ℝ
  marginals : ℕ → ℕ → ℝ
  alpha : ℕ → ℕ → ℝ
  beta : ℕ → ℕ → ℝ
  scale : ℕ → ℝ

/-- Embedding of ForwardBackward: the zero result for an empty sequence, and
otherwise the scaled forward-backward quantities. -/
noncomputable def ForwardBackward (T L : ℕ) (state trans : ℕ → ℕ → ℝ) :
    ForwardBackwardResult :=
  if T = 0 then ⟨0, fun _ _ => 0, fun _ _ => 0, fun _ _ => 0, fun _ => 0⟩
  else
    { logZ := fbLogZ T L state trans
      marginals := fbMarginal T L state trans
      alpha := fbAlpha L state trans
      beta := fbBeta T L state trans
      scale := fbScale L state trans }

/-- Score of a label path, as the specification enumerates it: per-position
state scores plus transition scores of every adjacent pair. -/
noncomputable def pathScoreF (state trans : ℕ → ℕ → ℝ) {T L : ℕ} (p : Fin T → Fin L) : ℝ :=
  (∑ t : Fin T, state t.1 (p t).1)
    + ∑ t : Fin (T - 1),
        trans (p ⟨t.1, by have := t.2; omega⟩).1 (p ⟨t.1 + 1, by have := t.2; omega⟩).1

/-- Brute-force partition function: the sum over all L^T label paths of exp
of the path score. -/
noncomputable def bruteZ (T L : ℕ) (state trans : ℕ → ℕ → ℝ) : ℝ :=
  ∑ p : Fin T → Fin L, Real.exp (pathScoreF state trans p)

/-! ### Unscaled forward-backward quantities (proof helpers) -/

/-- Unscaled forward recursion. -/
noncomputable def alphaU (L : ℕ) (state trans : ℕ → ℕ → ℝ) : ℕ → ℕ → ℝ
  | 0, y => Real.exp (state 0 y)
  | t + 1, y =>
      (∑ yp in Finset.range L, alphaU L state trans t yp * Real.exp (trans yp y))
        * Real.exp (state (t + 1) y)

/-- Row sum of the unscaled forward variables. -/
noncomputable def alphaSum (L : ℕ) (state trans : ℕ → ℕ → ℝ) (t : ℕ) : ℝ :=
  ∑ y in Finset.range L, alphaU L state trans t y

/-- Product of the scale factors of positions 0..t. -/
noncomputable def scaleProd (L : ℕ) (state trans : ℕ → ℕ → ℝ) (t : ℕ) : ℝ :=
  ∏ s in Finset.range (t + 1), fbScale L state trans s

/-- Unscaled backward recursion, indexed by the distance from the last
position. -/
noncomputable def betaU (T L : ℕ) (state trans : ℕ → ℕ → ℝ) : ℕ → ℕ → ℝ
  | 0, _ => 1
  | k + 1, y =>
      ∑ yn in Finset.range L,
        Real.exp (trans y yn) * Real.exp (state (T - 1 - k) yn)
          * betaU T L state trans k yn

/-- Product of the scale factors of the last k+1 positions. -/
noncomputable def scaleProdBack (T L : ℕ) (state trans : ℕ → ℕ → ℝ) (k : ℕ) : ℝ :=
  ∏ j in Finset.range (k + 1), fbScale L state trans (T - 1 - j)

/-! ## Viterbi decoding (src/crf/crf.go, Viterbi)

The `bestScore := -Inf` sentinel of each strict-greater scan is embedded as a
`none` accumulator (every real score beats it); for L at least 1 the scan
always produces a value, which is the regime of the claims (the source's
T = 0 early return yields a nil path and -Inf score, which have no real
counterpart).  The backtracked path is embedded as a function on positions. -/

/-- One step of the `if score > bestScore` scan: the first strictly greater
score replaces the accumulator, so ties keep the earlier index. -/
noncomputable def scanStep (f : ℕ → ℝ) (acc : Option (ℝ × ℕ)) (y : ℕ) : Option (ℝ × ℕ) :=
  match acc with
  | none => some (f y, y)
  | some (b, i) => if f y > b then some (f y, y) else some (b, i)

/-- The full scan over labels 0..L-1 starting from the -Inf sentinel. -/
noncomputable def argmaxScan (L : ℕ) (f : ℕ → ℝ) : Option (ℝ × ℕ) :=
  (List.range L).foldl (scanStep f) none

/-- The Viterbi table delta[t][y]: the state score at position 0, and the
best scanned predecessor score plus the state score afterwards. -/
noncomputable def viterbiDelta (L : ℕ) (state trans : ℕ → ℕ → ℝ) : ℕ → ℕ → ℝ
  | 0, y => state 0 y
  | t + 1, y =>
      ((argmaxScan L (fun yp => viterbiDelta L state trans t yp + trans yp y)).getD (0, 0)).1
        + state (t + 1) y

/-- The backpointer table psi[t][y] (0 at position 0, as in the source). -/
noncomputable def viterbiPsi (L : ℕ) (state trans : ℕ → ℕ → ℝ) : ℕ → ℕ → ℕ
  | 0, _ => 0
  | t + 1, y =>
      ((argmaxScan L (fun yp => viterbiDelta L state trans t yp + trans yp y)).getD (0, 0)).2

/-- Backtracking, indexed by the distance k from the last position: position
T-1 carries the scanned best final label, and position T-2-k follows the
backpointer of position T-1-k. -/
noncomputable def viterbiPathAux (T L : ℕ) (state trans : ℕ → ℕ → ℝ) : ℕ → ℕ
  | 0 => ((argmaxScan L (fun y => viterbiDelta L state trans (T - 1) y)).getD (0, 0)).2
  | k + 1 =>
      viterbiPsi L state trans (T - 1 - k) (viterbiPathAux T L state trans k)

/-- Embedding of Viterbi: the backtracked path (as a function on positions)
and the best final score. -/
noncomputable def Viterbi (T L : ℕ) (state trans : ℕ → ℕ → ℝ) : (ℕ → ℕ) × ℝ :=
  (fun t => viterbiPathAux T L state trans (T - 1 - t),
    ((argmaxScan L (fun y => viterbiDelta L state trans (T - 1) y)).getD (0, 0)).1)

/-- Score of a label path given as a function on positions, as the
specification enumerates it. -/
noncomputable def pathScoreN (T : ℕ) (state trans : ℕ → ℕ → ℝ) (p : ℕ → ℕ) : ℝ :=
  (∑ t in Finset.range T, state t (p t))
    + ∑ t in Finset.range (T - 1), trans (p t) (p (t + 1))

/-! ### Helper lemmas for claim C6 -/

lemma sum_sq_nonneg (l : List (ℕ × ℝ)) : 0 ≤ (l.map (fun e => e.2 * e.2)).sum := by
  induction l with
  | nil => simp
  | cons a t ih =>
      simp only [List.map_cons, List.sum_cons]
      have := mul_self_nonneg a.2
      linarith

lemma sum_sq_eq_zero {l : List (ℕ × ℝ)} (h : (l.map (fun e => e.2 * e.2)).sum = 0) :
    ∀ e ∈ l, e.2 = 0 := by
  induction l with
  | nil => simp
  | cons a t ih =>
      simp only [List.map_cons, List.sum_cons] at h
      have h1 : 0 ≤ a.2 * a.2 := mul_self_nonneg a.2
      have h2 : 0 ≤ (t.map (fun e => e.2 * e.2)).sum := sum_sq_nonneg t
      have ha : a.2 * a.2 = 0 := by linarith
      have ht : (t.map (fun e => e.2 * e.2)).sum = 0 := by linarith
      intro e he
      rcases List.mem_cons.mp he with rfl | he
      · exact mul_self_eq_zero.mp ha
      · exact ih ht e he

lemma l2norm_nonneg (sv : SparseVector) : 0 ≤ sv.l2norm := Real.sqrt_nonneg _

lemma l2norm_eq_zero_values {sv : SparseVector} (h : sv.l2norm = 0) :
    ∀ e ∈ sv.entries, e.2 = 0 := by
  have hs : (sv.entries.map (fun e => e.2 * e.2)).sum = 0 := by
    have := Real.sqrt_eq_zero (sum_sq_nonneg sv.entries) |>.mp h
    exact this
  exact sum_sq_eq_zero hs

lemma l2norm_div (sv : SparseVector) (c : ℝ) (hc : 0 < c) :
    (SparseVector.mk (sv.entries.map (fun e => (e.1, e.2 / c))) sv.dim).l2norm
      = sv.l2norm / c := by
  unfold SparseVector.l2norm
  simp only [List.map_map]
  have hmap : (sv.entries.map ((fun e : ℕ × ℝ => e.2 * e.2) ∘ (fun e : ℕ × ℝ => (e.1, e.2 / c))))
      = sv.entries.map (fun e => (e.2 * e.2) / (c * c)) := by
    apply List.map_congr_left
    intro e _
    simp only [Function.comp_apply]
    ring
  rw [hmap]
  have hsum : (sv.entries.map (fun e => (e.2 * e.2) / (c * c))).sum
      = (sv.entries.map (fun e => e.2 * e.2)).sum / (c * c) := by
    induction sv.entries with
    | nil => simp
    | cons a t ih => simp [ih, add_div]
  rw [hsum, Real.sqrt_div (sum_sq_nonneg _), Real.sqrt_mul_self hc.le]

/-- Claim C6: every TF-IDF transform output either has only zero values (the
zero vector comes back unchanged, with no division performed) or has L2 norm
exactly 1 over the reals (hence within 1e-6 of 1.0 as the specification
states). -/
theorem C6_tfidf_norm (countVec : SparseVector) (idf : List ℝ) :
    (∀ e ∈ (tfidfTransformValues countVec idf).entries, e.2 = 0) ∨
      (tfidfTransformValues countVec idf).l2norm = 1 := by
  unfold tfidfTransformValues l2normalize
  set w := applyIdf countVec idf with hw
  by_cases h : 0 < w.l2norm
  · right
    simp only [h, if_true]
    have := l2norm_div w w.l2norm h
    simpa [div_self (ne_of_gt h)] using this
  · left
    simp only [h, if_false]
    have h0 : w.l2norm = 0 := le_antisymm (not_lt.mp h) (l2norm_nonneg w)
    exact l2norm_eq_zero_values h0

lemma strLe_iff_le (a b : String) : strLe a b ↔ a ≤ b :=
  (String.le_iff_toList_le).symm

/-! ### Stop words are never removed (claim C5) -/

lemma filterText_id (tv : TfidfVectorizer) (text : String) : tv.filterText text = text := by
  unfold TfidfVectorizer.filterText
  split <;> rfl

lemma filterCorpus_id (tv : TfidfVectorizer) (corpus : List String) :
    tv.filterCorpus corpus = corpus := by
  unfold TfidfVectorizer.filterCorpus
  split
  · rfl
  · split
    · rfl
    · have hmap : corpus.map tv.filterText = corpus.map id :=
        List.map_congr_left (fun a _ => filterText_id tv a)
      rw [hmap, List.map_id]

/-- Claim C5, counterexample: with the word analyzer and stop-word set
containing "the", fitting on the corpus ["the fox"] still assigns the stop
word "the" a vocabulary column (column 1), so stop words are not removed
during Fit under the word analyzer. -/
theorem C5_counterexample :
    (TfidfVectorizer.fit
        { countVec := { vocabulary := [], ngramRange := (1, 1), binary := true,
                        analyzer := "word", minDF := 1 },
          idf := [], stopWords := ["the"] }
        ["the fox"]).countVec.vocabulary.lookup "the" = some 1 := by
  decide

/-- Claim C5 as amended: stop-word removal is a no-op under both analyzers.
Fitting or transforming with any stop-word set gives exactly the vectorizer
state and output obtained with no stop words, because filterCorpus and
filterText return their input unchanged in every branch. -/
theorem C5_stop_words_noop (tv : TfidfVectorizer) (sw corpus : List String) (text : String) :
    (({ tv with stopWords := sw } : TfidfVectorizer).fit corpus).countVec
        = (({ tv with stopWords := [] } : TfidfVectorizer).fit corpus).countVec
    ∧ (({ tv with stopWords := sw } : TfidfVectorizer).fit corpus).idf
        = (({ tv with stopWords := [] } : TfidfVectorizer).fit corpus).idf
    ∧ ({ tv with stopWords := sw } : TfidfVectorizer).transform text
        = ({ tv with stopWords := [] } : TfidfVectorizer).transform text := by
  simp only [TfidfVectorizer.fit, TfidfVectorizer.transform, filterCorpus_id, filterText_id]
  exact ⟨trivial, trivial, trivial⟩

/-! ### DictVectorizer drops unknown keys (claim C9) -/

lemma dict_transform_foldl_filter (dv : DictVectorizer) (d : List (String × FeatVal))
    (acc : SparseVector) :
    d.foldl
        (fun sv kv =>
          match dv.featureIndex.lookup (featureKey kv.1 kv.2) with
          | some idx => sv.set idx (featureValue kv.2)
          | none => sv) acc
      = (d.filter
          (fun kv => (dv.featureIndex.lookup (featureKey kv.1 kv.2)).isSome)).foldl
        (fun sv kv =>
          match dv.featureIndex.lookup (featureKey kv.1 kv.2) with
          | some idx => sv.set idx (featureValue kv.2)
          | none => sv) acc := by
  induction d generalizing acc with
  | nil => rfl
  | cons kv rest ih =>
      by_cases h : (dv.featureIndex.lookup (featureKey kv.1 kv.2)).isSome
      · rcases Option.isSome_iff_exists.mp h with ⟨idx, hidx⟩
        simp [List.filter_cons, h, hidx, ih]
      · have hnone : dv.featureIndex.lookup (featureKey kv.1 kv.2) = none :=
          Option.not_isSome_iff_eq_none.mp h
        simp [List.filter_cons, h, hnone, ih]

/-- Claim C9: DictVectorizer.Transform is total and every entry whose derived
key is missing from the fitted vocabulary contributes nothing (transforming a
map equals transforming the map with the unknown keys removed); in the
concrete scenario, fitting on the method=post and method=get dictionaries and
transforming method=put yields a vector with no nonzero entry whose dimension
is VocabSize. -/
theorem C9_dict_unknown_dropped :
    (∀ (dv : DictVectorizer) (d : List (String × FeatVal)),
        dv.transform d
          = dv.transform (d.filter
              (fun kv => (dv.featureIndex.lookup (featureKey kv.1 kv.2)).isSome)))
    ∧ ((DictVectorizer.fit [[("method", .str "post")], [("method", .str "get")]]).transform
          [("method", .str "put")]).nnz = 0
    ∧ ((DictVectorizer.fit [[("method", .str "post")], [("method", .str "get")]]).transform
          [("method", .str "put")]).dim
        = (DictVectorizer.fit [[("method", .str "post")], [("method", .str "get")]]).vocabSize := by
  refine ⟨?_, ?_, ?_⟩
  · intro dv d
    unfold DictVectorizer.transform
    exact dict_transform_foldl_filter dv d _
  · rfl
  · rfl

/-! ### CountVectorizer vocabulary (claim C7) -/

lemma mem_fitTerms (cv : CountVectorizer) (corpus : List String) (t : String) :
    t ∈ fitTerms cv corpus
      ↔ (∃ doc ∈ corpus, t ∈ cv.analyze doc) ∧ cv.minDF ≤ docFreq cv corpus t := by
  unfold fitTerms
  rw [(List.perm_insertionSort _ _).mem_iff, List.mem_filter, List.mem_dedup, List.mem_flatMap]
  simp

lemma nodup_fitTerms (cv : CountVectorizer) (corpus : List String) :
    (fitTerms cv corpus).Nodup := by
  unfold fitTerms
  exact (List.perm_insertionSort _ _).nodup_iff.mpr (List.nodup_dedup _ |>.filter _)

lemma sorted_le_fitTerms (cv : CountVectorizer) (corpus : List String) :
    (fitTerms cv corpus).Sorted (· ≤ ·) :=
  (List.sorted_insertionSort strLe _).imp (fun h => (strLe_iff_le _ _).mp h)

lemma sorted_lt_fitTerms (cv : CountVectorizer) (corpus : List String) :
    (fitTerms cv corpus).Sorted (· < ·) :=
  (sorted_le_fitTerms cv corpus).lt_of_le (nodup_fitTerms cv corpus)

lemma lookup_assignIndices_eq_none {l : List String} {t : String} (h : t ∉ l) (k : ℕ) :
    (assignIndices l k).lookup t = none := by
  induction l generalizing k with
  | nil => rfl
  | cons a rest ih =>
      have hne : (t == a) = false :=
        beq_eq_false_iff_ne.mpr (fun he => h (he ▸ List.mem_cons_self a rest))
      simp only [assignIndices, List.lookup, hne]
      exact ih (fun hm => h (List.mem_cons_of_mem a hm)) (k + 1)

lemma lookup_assignIndices_of_mem {l : List String} (hs : l.Sorted (· < ·)) {t : String}
    (h : t ∈ l) (k : ℕ) :
    (assignIndices l k).lookup t
      = some (k + (l.filter (fun s => decide (s < t))).length) := by
  induction l generalizing k with
  | nil => cases h
  | cons a rest ih =>
      have hrest : rest.Sorted (· < ·) := hs.of_cons
      have hlt : ∀ s ∈ rest, a < s := fun s hm => (List.sorted_cons.mp hs).1 s hm
      by_cases hta : t = a
      · subst hta
        have h1 : ¬ (t < t) := lt_irrefl t
        have h2 : ∀ s ∈ rest, ¬ (s < t) := fun s hm => not_lt_of_gt (hlt s hm)
        have hfil : ((t :: rest).filter (fun s => decide (s < t))) = [] := by
          rw [List.filter_eq_nil_iff]
          intro s hm
          simp only [decide_eq_true_eq]
          rcases List.mem_cons.mp hm with rfl | hm2
          · exact h1
          · exact h2 s hm2
        have hlook : List.lookup t (assignIndices (t :: rest) k) = some k := by
          simp [assignIndices, List.lookup]
        rw [hlook, hfil]
        simp
      · have hmem : t ∈ rest := by
          rcases List.mem_cons.mp h with he | hm
          · exact absurd he hta
          · exact hm
        have hat : a < t := hlt t hmem
        have hbeq : (t == a) = false := beq_eq_false_iff_ne.mpr hta
        simp only [assignIndices, List.lookup, hbeq]
        rw [ih hrest hmem (k + 1)]
        rw [List.filter_cons, if_pos (decide_eq_true hat)]
        simp only [List.length_cons, Option.some.injEq]
        omega

lemma rank_get {l : List String} (hs : l.Sorted (· < ·)) (i : ℕ) (h : i < l.length) :
    (l.filter (fun s => decide (s < l.get ⟨i, h⟩))).length = i := by
  induction l generalizing i with
  | nil => cases h
  | cons a rest ih =>
      have hrest : rest.Sorted (· < ·) := hs.of_cons
      have hlt : ∀ s ∈ rest, a < s := fun s hm => (List.sorted_cons.mp hs).1 s hm
      cases i with
      | zero =>
          have h2 : ∀ s ∈ rest, ¬ (s < a) := fun s hm => not_lt_of_gt (hlt s hm)
          have hfil : ((a :: rest).filter (fun s => decide (s < a))) = [] := by
            rw [List.filter_eq_nil_iff]
            intro s hm
            simp only [decide_eq_true_eq]
            rcases List.mem_cons.mp hm with rfl | hm2
            · exact lt_irrefl s
            · exact h2 s hm2
          show ((a :: rest).filter (fun s => decide (s < a))).length = 0
          rw [hfil]
          rfl
      | succ j =>
          have hj : j < rest.length := by simpa using h
          have hget : (a :: rest).get ⟨j + 1, h⟩ = rest.get ⟨j, hj⟩ := rfl
          have hat : a < rest.get ⟨j, hj⟩ := hlt _ (List.get_mem rest j hj)
          rw [hget, List.filter_cons, if_pos (decide_eq_true hat)]
          simp only [List.length_cons]
          rw [ih hrest j hj]

lemma length_assignIndices (l : List String) (k : ℕ) :
    (assignIndices l k).length = l.length := by
  induction l generalizing k with
  | nil => rfl
  | cons a rest ih => simp [assignIndices, ih]

lemma lookup_assignIndices_isSome (l : List String) (k : ℕ) (t : String) :
    ((assignIndices l k).lookup t).isSome ↔ t ∈ l := by
  induction l generalizing k with
  | nil => simp [assignIndices]
  | cons a rest ih =>
      by_cases hta : t = a
      · subst hta
        simp [assignIndices, List.lookup]
      · have hbeq : (t == a) = false := beq_eq_false_iff_ne.mpr hta
        simp only [assignIndices, List.lookup, hbeq, List.mem_cons]
        rw [ih (k + 1)]
        exact ⟨Or.inr, fun h => h.resolve_left hta⟩

lemma mem_analyzedTermSet (cv : CountVectorizer) (corpus : List String) (t : String) :
    t ∈ analyzedTermSet cv corpus
      ↔ (∃ doc ∈ corpus, t ∈ cv.analyze doc) ∧ cv.minDF ≤ docFreq cv corpus t := by
  unfold analyzedTermSet
  rw [Finset.mem_filter, List.mem_toFinset, List.mem_flatMap]

lemma toFinset_fitTerms (cv : CountVectorizer) (corpus : List String) :
    (fitTerms cv corpus).toFinset = analyzedTermSet cv corpus := by
  apply Finset.ext
  intro t
  rw [List.mem_toFinset, mem_fitTerms, mem_analyzedTermSet]

lemma fitTerms_length_eq_card (cv : CountVectorizer) (corpus : List String) :
    (fitTerms cv corpus).length = (analyzedTermSet cv corpus).card := by
  rw [← toFinset_fitTerms, List.toFinset_card_of_nodup (nodup_fitTerms cv corpus)]

lemma filter_lt_card (cv : CountVectorizer) (corpus : List String) (t : String) :
    ((fitTerms cv corpus).filter (fun s => decide (s < t))).length
      = ((analyzedTermSet cv corpus).filter (fun s => s < t)).card := by
  have hfin : ((fitTerms cv corpus).filter (fun s => decide (s < t))).toFinset
      = (analyzedTermSet cv corpus).filter (fun s => s < t) := by
    rw [List.toFinset_filter, toFinset_fitTerms]
    apply Finset.filter_congr
    intro s _
    simp
  rw [← hfin,
    List.toFinset_card_of_nodup ((nodup_fitTerms cv corpus).filter _)]

/-- Claim C7: after Fit, a term has a vocabulary column exactly when it is an
analyzed n-gram of some document with document frequency at least minDF;
VocabSize is the number of such terms; the column of a term is its
lexicographic rank among them and every column below VocabSize is used; and
the fitted vectorizer does not depend on the order of the corpus. -/
theorem C7_count_fit_vocabulary (cv : CountVectorizer) (corpus : List String) :
    (∀ t, ((cv.fit corpus).vocabulary.lookup t).isSome ↔ t ∈ analyzedTermSet cv corpus)
    ∧ (cv.fit corpus).vocabSize = (analyzedTermSet cv corpus).card
    ∧ (∀ t i, (cv.fit corpus).vocabulary.lookup t = some i →
        i = ((analyzedTermSet cv corpus).filter (fun s => s < t)).card)
    ∧ (∀ i, i < (cv.fit corpus).vocabSize →
        ∃ t, (cv.fit corpus).vocabulary.lookup t = some i)
    ∧ (∀ corpus₂, corpus₂.Perm corpus → cv.fit corpus₂ = cv.fit corpus) := by
  refine ⟨?_, ?_, ?_, ?_, ?_⟩
  · intro t
    unfold CountVectorizer.fit
    rw [lookup_assignIndices_isSome, mem_fitTerms, mem_analyzedTermSet]
  · unfold CountVectorizer.fit CountVectorizer.vocabSize
    simp only [length_assignIndices]
    exact fitTerms_length_eq_card cv corpus
  · intro t i hlook
    have hmem : t ∈ fitTerms cv corpus := by
      rw [← lookup_assignIndices_isSome (fitTerms cv corpus) 0 t]
      unfold CountVectorizer.fit at hlook
      rw [hlook]
      rfl
    have := lookup_assignIndices_of_mem (sorted_lt_fitTerms cv corpus) hmem 0
    unfold CountVectorizer.fit at hlook
    rw [this] at hlook
    have hi : i = (List.filter (fun s => decide (s < t)) (fitTerms cv corpus)).length := by
      have := Option.some.inj hlook
      omega
    rw [hi, filter_lt_card]
  · intro i hi
    unfold CountVectorizer.fit CountVectorizer.vocabSize at *
    simp only [length_assignIndices] at hi
    refine ⟨(fitTerms cv corpus).get ⟨i, hi⟩, ?_⟩
    rw [lookup_assignIndices_of_mem (sorted_lt_fitTerms cv corpus)
      (List.get_mem (fitTerms cv corpus) i hi) 0]
    rw [rank_get (sorted_lt_fitTerms cv corpus) i hi, Nat.zero_add]
  · intro corpus₂ hp
    have hdf : ∀ t, docFreq cv corpus₂ t = docFreq cv corpus t := fun t =>
      hp.countP_eq _
    have hterms : fitTerms cv corpus₂ = fitTerms cv corpus := by
      have hflat : (corpus₂.flatMap cv.analyze).Perm (corpus.flatMap cv.analyze) :=
        hp.flatMap_right cv.analyze
      have hded : ((corpus₂.flatMap cv.analyze).dedup).Perm
          ((corpus.flatMap cv.analyze).dedup) := hflat.dedup
      have hpred : ((corpus₂.flatMap cv.analyze).dedup).filter
            (fun t => decide (cv.minDF ≤ docFreq cv corpus₂ t))
          = ((corpus₂.flatMap cv.analyze).dedup).filter
            (fun t => decide (cv.minDF ≤ docFreq cv corpus t)) := by
        apply List.filter_congr
        intro s _
        rw [hdf s]
      have hfil : (((corpus₂.flatMap cv.analyze).dedup).filter
            (fun t => decide (cv.minDF ≤ docFreq cv corpus₂ t))).Perm
          (((corpus.flatMap cv.analyze).dedup).filter
            (fun t => decide (cv.minDF ≤ docFreq cv corpus t))) := by
        rw [hpred]
        exact hded.filter _
      have hperm : (fitTerms cv corpus₂).Perm (fitTerms cv corpus) := by
        unfold fitTerms
        exact ((List.perm_insertionSort strLe _).trans hfil).trans
          (List.perm_insertionSort strLe _).symm
      exact List.eq_of_perm_of_sorted hperm
        (sorted_le_fitTerms cv corpus₂) (sorted_le_fitTerms cv corpus)
    unfold CountVectorizer.fit
    rw [hterms]

/-- Witness for claim C7 at a concrete vectorizer and corpus: the fitted
vocabulary assigns the term "b" column 1, and the theorem turns that into the
lexicographic rank of "b" in the analyzed term set. -/
theorem C7_count_fit_vocabulary_witness :
    ((CountVectorizer.fit ⟨[], (1, 1), true, "word", 1⟩ ["b a", "a"]).vocabulary.lookup "b"
        = some 1)
    ∧ 1 = ((analyzedTermSet ⟨[], (1, 1), true, "word", 1⟩ ["b a", "a"]).filter
        (fun s => s < "b")).card :=
  ⟨by decide,
    (C7_count_fit_vocabulary ⟨[], (1, 1), true, "word", 1⟩ ["b a", "a"]).2.2.1 "b" 1 (by decide)⟩

lemma lineSearchLoop_pos (w dir : ℕ → ℝ) (n : ℕ) (c1 fVal dirDeriv : ℝ)
    (objFunc : (ℕ → ℝ) → ℝ) (t : ℕ) (step : ℝ) (hstep : 0 < step) :
    0 < lineSearchLoop w dir n c1 fVal dirDeriv objFunc t step := by
  induction t generalizing step with
  | zero => exact hstep
  | succ t ih =>
      unfold lineSearchLoop
      split
      · exact hstep
      · exact ih (step * 0.5) (by positivity)

lemma lineSearchLoop_pow (w dir : ℕ → ℝ) (n : ℕ) (c1 fVal dirDeriv : ℝ)
    (objFunc : (ℕ → ℝ) → ℝ) (t : ℕ) (step : ℝ) :
    ∃ j ≤ t, lineSearchLoop w dir n c1 fVal dirDeriv objFunc t step
      = step * (0.5 : ℝ) ^ j := by
  induction t generalizing step with
  | zero => exact ⟨0, le_rfl, by simp [lineSearchLoop]⟩
  | succ t ih =>
      unfold lineSearchLoop
      split
      · exact ⟨0, Nat.zero_le _, by simp⟩
      · rcases ih (step * 0.5) with ⟨j, hj, heq⟩
        refine ⟨j + 1, by omega, ?_⟩
        rw [heq]
        ring

lemma lineSearchLoop_all_fail (w dir : ℕ → ℝ) (n : ℕ) (c1 fVal dirDeriv : ℝ)
    (objFunc : (ℕ → ℝ) → ℝ) (t : ℕ) (step : ℝ)
    (h : ∀ j < t, ¬ (objFunc (lineSearchW w dir n c1 (step * (0.5 : ℝ) ^ j))
        ≤ fVal + 1e-4 * (step * (0.5 : ℝ) ^ j) * dirDeriv)) :
    lineSearchLoop w dir n c1 fVal dirDeriv objFunc t step = step * (0.5 : ℝ) ^ t := by
  induction t generalizing step with
  | zero => simp [lineSearchLoop]
  | succ t ih =>
      unfold lineSearchLoop
      have h0 := h 0 (Nat.succ_pos t)
      simp only [pow_zero, mul_one] at h0
      rw [if_neg h0]
      have hrec := ih (step * 0.5) (fun j hj => by
        have := h (j + 1) (by omega)
        have harr : step * (0.5 : ℝ) ^ (j + 1) = step * 0.5 * (0.5 : ℝ) ^ j := by ring
        rwa [harr] at this)
      rw [hrec]
      ring

/-- Claim C10, counterexample: a direction with negative directional
derivative and an objective that never satisfies the Armijo test makes
owlqnLineSearch return (1/2)^20, not the claimed (1/2)^19: the loop halves
the step once more after the twentieth failed trial before returning it. -/
theorem C10_counterexample :
    owlqnLineSearch (fun _ => 0) (fun _ => -1) 0 (fun _ => 1)
        (fun _ => 1) 1 0 = (0.5 : ℝ) ^ 20
    ∧ (0.5 : ℝ) ^ 20 ≠ (0.5 : ℝ) ^ 19 := by
  constructor
  · unfold owlqnLineSearch
    have hderiv : dotFn (fun _ => (-1 : ℝ)) (fun _ => 1) 1 = -1 := by
      simp [dotFn]
    rw [hderiv, if_neg (by norm_num)]
    have := lineSearchLoop_all_fail (fun _ => 0) (fun _ => -1) 1 0 0 (-1)
      (fun _ => 1) 20 1 (fun j _ => by
        have hpow : (0 : ℝ) < (1 : ℝ) * (0.5 : ℝ) ^ j := by positivity
        intro hc
        nlinarith)
    rw [this]
    ring
  · intro h
    have := pow_lt_pow_right_of_lt_one₀ (by norm_num : (0:ℝ) < 0.5)
      (by norm_num : (0.5:ℝ) < 1) (by omega : 19 < 20)
    rw [h] at this
    exact lt_irrefl _ this

/-- Claim C10 as amended: owlqnLineSearch returns 0 exactly when the
directional derivative dir·pg is nonnegative; when dir·pg < 0 it returns a
strictly positive step of the form (1/2)^k with 0 ≤ k ≤ 20; and when all 20
backtracking trials fail the Armijo condition it returns (1/2)^20 — the last
tried step halved once more — so the trainer still receives a nonzero step
that achieved no sufficient decrease. -/
theorem C10_line_search (w dir pg : ℕ → ℝ) (objFunc : (ℕ → ℝ) → ℝ) (fVal c1 : ℝ) (n : ℕ) :
    (owlqnLineSearch w dir fVal pg objFunc n c1 = 0 ↔ 0 ≤ dotFn dir pg n)
    ∧ (dotFn dir pg n < 0 →
        (0 < owlqnLineSearch w dir fVal pg objFunc n c1
          ∧ ∃ k ≤ 20, owlqnLineSearch w dir fVal pg objFunc n c1 = (0.5 : ℝ) ^ k))
    ∧ ((dotFn dir pg n < 0 ∧ ∀ k < 20,
          ¬ (objFunc (lineSearchW w dir n c1 ((0.5 : ℝ) ^ k))
              ≤ fVal + 1e-4 * (0.5 : ℝ) ^ k * dotFn dir pg n)) →
        owlqnLineSearch w dir fVal pg objFunc n c1 = (0.5 : ℝ) ^ 20) := by
  refine ⟨⟨?_, ?_⟩, ?_, ?_⟩
  · intro h
    by_contra hneg
    push_neg at hneg
    have hlt : dotFn dir pg n < 0 := hneg
    unfold owlqnLineSearch at h
    rw [if_neg (not_le.mpr hlt)] at h
    have := lineSearchLoop_pos w dir n c1 fVal (dotFn dir pg n) objFunc 20 1 one_pos
    rw [h] at this
    exact lt_irrefl _ this
  · intro h
    unfold owlqnLineSearch
    rw [if_pos h]
  · intro hlt
    unfold owlqnLineSearch
    rw [if_neg (not_le.mpr hlt)]
    refine ⟨lineSearchLoop_pos w dir n c1 fVal _ objFunc 20 1 one_pos, ?_⟩
    rcases lineSearchLoop_pow w dir n c1 fVal (dotFn dir pg n) objFunc 20 1 with ⟨j, hj, heq⟩
    exact ⟨j, hj, by rw [heq, one_mul]⟩
  · rintro ⟨hlt, hfail⟩
    unfold owlqnLineSearch
    rw [if_neg (not_le.mpr hlt)]
    have := lineSearchLoop_all_fail w dir n c1 fVal (dotFn dir pg n) objFunc 20 1
      (fun j hj => by
        have := hfail j hj
        simpa using this)
    rw [this]
    ring

/-- Witness for the amended claim C10 at a concrete input with negative
directional derivative: the returned step is strictly positive. -/
theorem C10_line_search_witness :
    dotFn (fun _ => (-1 : ℝ)) (fun _ => 1) 1 < 0
    ∧ 0 < owlqnLineSearch (fun _ => 0) (fun _ => -1) 0 (fun _ => 1) (fun _ => 1) 1 0 := by
  have hderiv : dotFn (fun _ => (-1 : ℝ)) (fun _ => 1) 1 < 0 := by
    simp [dotFn]
  exact ⟨hderiv,
    ((C10_line_search (fun _ => 0) (fun _ => -1) (fun _ => 1)
      (fun _ => 1) 0 0 1).2.1 hderiv).1⟩

/-- Claim C4 evaluated on the failing input: crf.Train on an empty sequence
list builds a degenerate model — zero labels and an empty weight vector —
and its line search over the zero-dimensional weight space returns step 0,
so Train stops and returns that model with no error; TrainFormType on an
empty form list hits an out-of-range index (none) instead of returning a
descriptive error. -/
theorem C4_empty_training_no_error :
    (crfTrainInit []).numLabels = 0
    ∧ (crfTrainInit []).weights = []
    ∧ (∀ (w dir pg : ℕ → ℝ) (fVal : ℝ) (objFunc : (ℕ → ℝ) → ℝ) (c1 : ℝ),
        owlqnLineSearch w dir fVal pg objFunc 0 c1 = 0)
    ∧ trainFormTypeTotalDim [] = none := by
  refine ⟨rfl, rfl, ?_, rfl⟩
  intro w dir pg fVal objFunc c1
  unfold owlqnLineSearch dotFn
  simp

/-! ### Lemmas for claim C8 -/

lemma softmaxStable_eq (kk : ℕ) (logits : ℕ → ℝ) (i : ℕ) :
    softmaxStable kk logits i = softmaxMath kk logits i := by
  unfold softmaxStable softmaxMath
  have hden : ∑ j in Finset.range kk, Real.exp (logits j - sliceMax kk logits)
      = (∑ j in Finset.range kk, Real.exp (logits j)) / Real.exp (sliceMax kk logits) := by
    rw [Finset.sum_div]
    exact Finset.sum_congr rfl (fun j _ => Real.exp_sub _ _)
  rw [hden, Real.exp_sub]
  have hm : Real.exp (sliceMax kk logits) ≠ 0 := (Real.exp_pos _).ne'
  by_cases hS : (∑ j in Finset.range kk, Real.exp (logits j)) = 0
  · simp [hS]
  · field_simp

lemma softmaxMath_pos (kk : ℕ) (hk : 1 ≤ kk) (logits : ℕ → ℝ) (i : ℕ) :
    0 < softmaxMath kk logits i := by
  unfold softmaxMath
  apply div_pos (Real.exp_pos _)
  apply Finset.sum_pos (fun j _ => Real.exp_pos _)
  exact ⟨0, Finset.mem_range.mpr hk⟩

lemma gradInc_list (l : List (ℕ × ℝ)) (h : (l.map Prod.fst).Nodup) (diff : ℝ) (i : ℕ) :
    ((l.countP (fun e => e.1 == i)) : ℝ)
        * (diff * (((l.find? (fun e => e.1 == i)).map Prod.snd).getD 0))
      = diff * (l.map (fun e => if e.1 = i then e.2 else 0)).sum := by
  induction l with
  | nil => simp
  | cons e rest ih =>
      simp only [List.map_cons, List.nodup_cons] at h
      obtain ⟨hnot, hrest⟩ := h
      by_cases he : e.1 = i
      · subst he
        have hcnt : rest.countP (fun a => a.1 == e.1) = 0 := by
          rw [List.countP_eq_zero]
          intro a ha
          simp only [beq_iff_eq]
          intro hae
          exact hnot (hae ▸ List.mem_map_of_mem Prod.fst ha)
        have hsum : (rest.map (fun a => if a.1 = e.1 then a.2 else 0)).sum = 0 := by
          apply List.sum_eq_zero
          intro v hv
          rcases List.mem_map.mp hv with ⟨a, ha, rfl⟩
          rw [if_neg (fun hae : a.1 = e.1 =>
            hnot (hae ▸ List.mem_map_of_mem Prod.fst ha))]
        rw [List.countP_cons, hcnt]
        have hfind : ((e :: rest).find? (fun a => a.1 == e.1)) = some e := by
          simp [List.find?]
        rw [hfind]
        simp [hsum]
      · have hbeq : (e.1 == i) = false := beq_eq_false_iff_ne.mpr he
        have hfind : ((e :: rest).find? (fun a => a.1 == i))
            = rest.find? (fun a => a.1 == i) := by
          simp [List.find?, hbeq]
        have hif : (if (e.1 == i) = true then 1 else 0) = 0 := by simp [hbeq]
        rw [List.countP_cons, hfind, hif, Nat.add_zero]
        simp only [List.map_cons, List.sum_cons, if_neg he, zero_add]
        exact ih hrest

lemma lrGradInc_eq (sv : SparseVector) (h : (sv.entries.map Prod.fst).Nodup)
    (diff : ℝ) (i : ℕ) :
    lrGradInc sv diff i = diff * entryVal sv i :=
  gradInc_list sv.entries h diff i

lemma gradInc_absent (sv : SparseVector) (diff : ℝ) (i : ℕ)
    (h : ∀ e ∈ sv.entries, e.1 ≠ i) : lrGradInc sv diff i = 0 := by
  unfold lrGradInc
  have : sv.entries.countP (fun e => e.1 == i) = 0 := by
    rw [List.countP_eq_zero]
    intro a ha
    simpa using h a ha
  rw [this]
  simp

lemma coord_div (k i dd : ℕ) (hi : i < dd + 1) : (k * (dd + 1) + i) / (dd + 1) = k := by
  rw [Nat.mul_comm, Nat.mul_add_div (Nat.succ_pos dd), Nat.div_eq_of_lt hi]
  rfl

lemma coord_inj {k i kp ip dd : ℕ} (hi : i < dd + 1) (hip : ip < dd + 1)
    (h : k * (dd + 1) + i = kp * (dd + 1) + ip) : k = kp ∧ i = ip := by
  have hk : k = kp := by
    have := congrArg (· / (dd + 1)) h
    simpa [coord_div k i dd hi, coord_div kp ip dd hip] using this
  subst hk
  omega

lemma off_lt {k kp i dd : ℕ} (hi : i ≤ dd) (hkk : k < kp) :
    k * (dd + 1) + i < kp * (dd + 1) := by
  have h1 : k * (dd + 1) + i < (k + 1) * (dd + 1) := by
    have : (k + 1) * (dd + 1) = k * (dd + 1) + (dd + 1) := by ring
    omega
  have h2 : (k + 1) * (dd + 1) ≤ kp * (dd + 1) := Nat.mul_le_mul_right _ hkk
  omega

/-- Contribution of one example to a weight coordinate: only the owning class
block contributes, and with distinct in-range indices the increment is `diff`
times the stored coordinate value. -/
lemma exampleGrad_weight (params : ℕ → ℝ) (numClasses totalDim : ℕ) (sv : SparseVector)
    (yj : ℕ) (hnd : (sv.entries.map Prod.fst).Nodup)
    (hrange : ∀ e ∈ sv.entries, e.1 < totalDim)
    (k i : ℕ) (hk : k < numClasses) (hi : i < totalDim) :
    lrExampleGrad params numClasses totalDim sv yj (k * (totalDim + 1) + i)
      = lrDiff params numClasses totalDim sv yj k * entryVal sv i := by
  unfold lrExampleGrad
  rw [Finset.sum_eq_single_of_mem k (Finset.mem_range.mpr hk)]
  · have hle : k * (totalDim + 1) ≤ k * (totalDim + 1) + i := Nat.le_add_right _ _
    rw [if_pos hle]
    have hsub : k * (totalDim + 1) + i - k * (totalDim + 1) = i := by omega
    rw [hsub]
    have hnotI : ¬ (k * (totalDim + 1) + i = k * (totalDim + 1) + totalDim) := by omega
    rw [if_neg hnotI, lrGradInc_eq sv hnd, add_zero]
  · intro b hb hbk
    rw [Finset.mem_range] at hb
    rcases Nat.lt_or_ge b k with hbk2 | hbk2
    · -- earlier block: the scanned column lies beyond every stored index
      have hle : b * (totalDim + 1) ≤ k * (totalDim + 1) + i := by
        have := off_lt (le_of_lt hi) hbk2
        omega
      rw [if_pos hle]
      have hcol : totalDim < k * (totalDim + 1) + i - b * (totalDim + 1) := by
        have h1 : (b + 1) * (totalDim + 1) ≤ k * (totalDim + 1) := by
          have : b + 1 ≤ k := hbk2
          exact Nat.mul_le_mul_right _ this
        have h2 : (b + 1) * (totalDim + 1) = b * (totalDim + 1) + (totalDim + 1) := by ring
        omega
      rw [gradInc_absent sv _ _ (fun e he => by
        have := hrange e he
        omega)]
      have hnotI : ¬ (k * (totalDim + 1) + i = b * (totalDim + 1) + totalDim) := by
        intro hcontra
        exact hbk (coord_inj (by omega) (by omega) hcontra).1.symm
      rw [if_neg hnotI]
      simp
    · -- later block: its offset lies beyond this coordinate
      have hbk3 : k < b := lt_of_le_of_ne hbk2 (fun he => hbk he.symm)
      have hgt : k * (totalDim + 1) + i < b * (totalDim + 1) :=
        off_lt (le_of_lt hi) hbk3
      rw [if_neg (by omega)]
      have hnotI : ¬ (k * (totalDim + 1) + i = b * (totalDim + 1) + totalDim) := by omega
      rw [if_neg hnotI]
      simp

/-- Contribution of one example to an intercept coordinate: exactly `diff`
for the owning class, with no index-scan increment. -/
lemma exampleGrad_intercept (params : ℕ → ℝ) (numClasses totalDim : ℕ) (sv : SparseVector)
    (yj : ℕ) (hrange : ∀ e ∈ sv.entries, e.1 < totalDim)
    (k : ℕ) (hk : k < numClasses) :
    lrExampleGrad params numClasses totalDim sv yj (k * (totalDim + 1) + totalDim)
      = lrDiff params numClasses totalDim sv yj k := by
  unfold lrExampleGrad
  rw [Finset.sum_eq_single_of_mem k (Finset.mem_range.mpr hk)]
  · rw [if_pos (Nat.le_add_right _ _)]
    have hsub : k * (totalDim + 1) + totalDim - k * (totalDim + 1) = totalDim := by omega
    rw [hsub, gradInc_absent sv _ _ (fun e he => by
        have := hrange e he
        omega), if_pos rfl]
    simp
  · intro b hb hbk
    rw [Finset.mem_range] at hb
    have hnotI : ¬ (k * (totalDim + 1) + totalDim = b * (totalDim + 1) + totalDim) := by
      intro hcontra
      exact hbk (coord_inj (by omega) (by omega) hcontra).1.symm
    rw [if_neg hnotI]
    rcases Nat.lt_or_ge b k with hbk2 | hbk2
    · have hle : b * (totalDim + 1) ≤ k * (totalDim + 1) + totalDim := by
        have := off_lt (le_refl totalDim) hbk2
        omega
      rw [if_pos hle]
      have hcol : totalDim < k * (totalDim + 1) + totalDim - b * (totalDim + 1) := by
        have h1 : (b + 1) * (totalDim + 1) ≤ k * (totalDim + 1) :=
          Nat.mul_le_mul_right _ hbk2
        have h2 : (b + 1) * (totalDim + 1) = b * (totalDim + 1) + (totalDim + 1) := by ring
        omega
      rw [gradInc_absent sv _ _ (fun e he => by
        have := hrange e he
        omega)]
      simp
    · have hbk3 : k < b := lt_of_le_of_ne hbk2 (fun he => hbk he.symm)
      have hgt : k * (totalDim + 1) + totalDim < b * (totalDim + 1) :=
        off_lt (le_refl totalDim) hbk3
      rw [if_neg (by omega)]
      simp

/-- The regularization part of the gradient at a weight coordinate. -/
lemma regGrad_weight (params : ℕ → ℝ) (numClasses totalDim : ℕ) (c : ℝ)
    (k i : ℕ) (hk : k < numClasses) (hi : i < totalDim) :
    (∑ kp in Finset.range numClasses, ∑ ip in Finset.range totalDim,
        (if k * (totalDim + 1) + i = kp * (totalDim + 1) + ip then
          (1 / c) * params (k * (totalDim + 1) + i) else 0))
      = (1 / c) * params (k * (totalDim + 1) + i) := by
  rw [Finset.sum_eq_single_of_mem k (Finset.mem_range.mpr hk)]
  · rw [Finset.sum_eq_single_of_mem i (Finset.mem_range.mpr hi)]
    · rw [if_pos rfl]
    · intro b hb hbne
      rw [Finset.mem_range] at hb
      rw [if_neg (fun hcontra => hbne (coord_inj (by omega) (by omega) hcontra).2.symm)]
  · intro b hb hbne
    rw [Finset.mem_range] at hb
    apply Finset.sum_eq_zero
    intro ip hip
    rw [Finset.mem_range] at hip
    rw [if_neg (fun hcontra => hbne (coord_inj (by omega) (by omega) hcontra).1.symm)]

/-- The regularization part of the gradient vanishes at intercept
coordinates. -/
lemma regGrad_intercept (params : ℕ → ℝ) (numClasses totalDim : ℕ) (c : ℝ) (k : ℕ) :
    (∑ kp in Finset.range numClasses, ∑ ip in Finset.range totalDim,
        (if k * (totalDim + 1) + totalDim = kp * (totalDim + 1) + ip then
          (1 / c) * params (k * (totalDim + 1) + totalDim) else 0))
      = 0 := by
  apply Finset.sum_eq_zero
  intro kp _
  apply Finset.sum_eq_zero
  intro ip hip
  rw [Finset.mem_range] at hip
  rw [if_neg (fun hcontra => by
    have := (coord_inj (by omega) (by omega) hcontra).2
    omega)]

/-- Claim C8: over the reals the logistic-regression objective is the summed
negative log softmax probability of the gold classes plus `0.5 * (1/C)` times
the squared norm of the weight cells only (no intercept in the penalty), and
the gradient is, at each weight cell, the accumulated `(softmax_k − 1[y=k]) *
x_i` plus `w/C`, and at each intercept cell the accumulated difference alone
with no regularization term. -/
theorem C8_logreg_objective (x : List SparseVector) (y : List ℕ) (params : ℕ → ℝ)
    (numClasses totalDim : ℕ) (c : ℝ)
    (hK : 1 ≤ numClasses)
    (hx : ∀ sv ∈ x, (sv.entries.map Prod.fst).Nodup ∧ ∀ e ∈ sv.entries, e.1 < totalDim) :
    (logRegObjective x y params numClasses totalDim c).1
      = ((x.zip y).map (fun ex =>
            -Real.log (softmaxMath numClasses (lrLogit params totalDim ex.1) ex.2))).sum
        + 0.5 * (1 / c) * ∑ k in Finset.range numClasses, ∑ i in Finset.range totalDim,
            params (k * (totalDim + 1) + i) * params (k * (totalDim + 1) + i)
    ∧ (∀ k, k < numClasses →
        (∀ i, i < totalDim →
          (logRegObjective x y params numClasses totalDim c).2 (k * (totalDim + 1) + i)
            = ((x.zip y).map (fun ex =>
                (softmaxMath numClasses (lrLogit params totalDim ex.1) k
                  - (if k = ex.2 then 1 else 0)) * entryVal ex.1 i)).sum
              + (1 / c) * params (k * (totalDim + 1) + i))
        ∧ (logRegObjective x y params numClasses totalDim c).2
              (k * (totalDim + 1) + totalDim)
            = ((x.zip y).map (fun ex =>
                softmaxMath numClasses (lrLogit params totalDim ex.1) k
                  - (if k = ex.2 then 1 else 0))).sum) := by
  have hmemx : ∀ ex ∈ x.zip y, ex.1 ∈ x := fun ex hex =>
    (List.of_mem_zip (show (ex.1, ex.2) ∈ x.zip y from hex)).1
  refine ⟨?_, ?_⟩
  · simp only [logRegObjective]
    have hloss : ((x.zip y).map
          (fun ex => lrExampleLoss params numClasses totalDim ex.1 ex.2)).sum
        = ((x.zip y).map (fun ex =>
            -Real.log (softmaxMath numClasses (lrLogit params totalDim ex.1) ex.2))).sum := by
      apply congrArg List.sum
      apply List.map_congr_left
      intro ex _
      unfold lrExampleLoss lrProb
      rw [softmaxStable_eq]
      rw [if_pos (softmaxMath_pos numClasses hK _ _)]
    have hreg : (∑ k in Finset.range numClasses, ∑ i in Finset.range totalDim,
          0.5 * (1 / c) *
            (params (k * (totalDim + 1) + i) * params (k * (totalDim + 1) + i)))
        = 0.5 * (1 / c) * ∑ k in Finset.range numClasses, ∑ i in Finset.range totalDim,
            params (k * (totalDim + 1) + i) * params (k * (totalDim + 1) + i) := by
      rw [Finset.mul_sum]
      apply Finset.sum_congr rfl
      intro k _
      rw [Finset.mul_sum]
    rw [hloss, hreg]
  · intro k hk
    constructor
    · intro i hi
      simp only [logRegObjective]
      rw [regGrad_weight params numClasses totalDim c k i hk hi]
      congr 1
      apply congrArg List.sum
      apply List.map_congr_left
      intro ex hex
      obtain ⟨hnd, hrange⟩ := hx ex.1 (hmemx ex hex)
      rw [exampleGrad_weight params numClasses totalDim ex.1 ex.2 hnd hrange k i hk hi]
      unfold lrDiff lrProb
      rw [softmaxStable_eq]
    · simp only [logRegObjective]
      rw [regGrad_intercept params numClasses totalDim c k, add_zero]
      apply congrArg List.sum
      apply List.map_congr_left
      intro ex hex
      obtain ⟨hnd, hrange⟩ := hx ex.1 (hmemx ex hex)
      rw [exampleGrad_intercept params numClasses totalDim ex.1 ex.2 hrange k hk]
      unfold lrDiff lrProb
      rw [softmaxStable_eq]

/-- Witness for claim C8 at one concrete example (one class, one feature):
the hypotheses hold and the theorem applies. -/
theorem C8_logreg_objective_witness :
    (1 ≤ 1 ∧ (∀ sv ∈ [SparseVector.mk [(0, 2)] 1],
        (sv.entries.map Prod.fst).Nodup ∧ ∀ e ∈ sv.entries, e.1 < 1))
    ∧ (logRegObjective [SparseVector.mk [(0, 2)] 1] [0] (fun _ => 0) 1 1 1).1
      = (([SparseVector.mk [(0, 2)] 1].zip [0]).map (fun ex =>
            -Real.log (softmaxMath 1 (lrLogit (fun _ => 0) 1 ex.1) ex.2))).sum
        + 0.5 * (1 / 1) * ∑ k in Finset.range 1, ∑ i in Finset.range 1,
            (fun _ => (0 : ℝ)) (k * (1 + 1) + i) * (fun _ => (0 : ℝ)) (k * (1 + 1) + i) := by
  have hx : ∀ sv ∈ [SparseVector.mk [(0, 2)] 1],
      (sv.entries.map Prod.fst).Nodup ∧ ∀ e ∈ sv.entries, e.1 < 1 := by
    intro sv hsv
    simp only [List.mem_singleton] at hsv
    subst hsv
    refine ⟨by simp, ?_⟩
    intro e he
    simp only [List.mem_singleton] at he
    subst he
    simp
  exact ⟨⟨le_rfl, hx⟩,
    (C8_logreg_objective [SparseVector.mk [(0, 2)] 1] [0] (fun _ => 0) 1 1 1 le_rfl hx).1⟩

/-! ### Scaled-to-unscaled correspondence -/

lemma fbAlpha_zero (L : ℕ) (state trans : ℕ → ℕ → ℝ) (y : ℕ) :
    fbAlpha L state trans 0 y = Real.exp (state 0 y) * fbScale L state trans 0 := rfl

lemma fbScale_zero (L : ℕ) (state trans : ℕ → ℕ → ℝ) :
    fbScale L state trans 0 = 1 / (∑ y in Finset.range L, Real.exp (state 0 y)) := rfl

lemma fbAlpha_succ (L : ℕ) (state trans : ℕ → ℕ → ℝ) (t y : ℕ) :
    fbAlpha L state trans (t + 1) y
      = ((∑ yp in Finset.range L, fbAlpha L state trans t yp * Real.exp (trans yp y))
          * Real.exp (state (t + 1) y)) * fbScale L state trans (t + 1) := rfl

lemma fbScale_succ (L : ℕ) (state trans : ℕ → ℕ → ℝ) (t : ℕ) :
    fbScale L state trans (t + 1)
      = (if (∑ y in Finset.range L,
            (∑ yp in Finset.range L, fbAlpha L state trans t yp * Real.exp (trans yp y))
              * Real.exp (state (t + 1) y)) = 0 then 1
        else 1 / (∑ y in Finset.range L,
            (∑ yp in Finset.range L, fbAlpha L state trans t yp * Real.exp (trans yp y))
              * Real.exp (state (t + 1) y))) := rfl

lemma alphaU_zero_eq (L : ℕ) (state trans : ℕ → ℕ → ℝ) (y : ℕ) :
    alphaU L state trans 0 y = Real.exp (state 0 y) := rfl

lemma alphaU_succ_eq (L : ℕ) (state trans : ℕ → ℕ → ℝ) (t y : ℕ) :
    alphaU L state trans (t + 1) y
      = (∑ yp in Finset.range L, alphaU L state trans t yp * Real.exp (trans yp y))
          * Real.exp (state (t + 1) y) := rfl

lemma alphaU_pos (L : ℕ) (state trans : ℕ → ℕ → ℝ) (hL : 1 ≤ L) (t y : ℕ) :
    0 < alphaU L state trans t y := by
  induction t generalizing y with
  | zero => exact Real.exp_pos _
  | succ t ih =>
      unfold alphaU
      apply mul_pos _ (Real.exp_pos _)
      apply Finset.sum_pos (fun yp _ => mul_pos (ih yp) (Real.exp_pos _))
      exact ⟨0, Finset.mem_range.mpr hL⟩

lemma alphaSum_pos (L : ℕ) (state trans : ℕ → ℕ → ℝ) (hL : 1 ≤ L) (t : ℕ) :
    0 < alphaSum L state trans t := by
  apply Finset.sum_pos (fun y _ => alphaU_pos L state trans hL t y)
  exact ⟨0, Finset.mem_range.mpr hL⟩

/-- Joint induction: the scaled alpha row is the unscaled row times the
product of the scale factors so far, that product is the inverse of the
unscaled row sum, and every scale factor is positive. -/
lemma fb_scaled (L : ℕ) (state trans : ℕ → ℕ → ℝ) (hL : 1 ≤ L) (t : ℕ) :
    (∀ y, fbAlpha L state trans t y
        = alphaU L state trans t y * scaleProd L state trans t)
    ∧ scaleProd L state trans t = 1 / alphaSum L state trans t
    ∧ 0 < fbScale L state trans t := by
  induction t with
  | zero =>
      have hs : fbScale L state trans 0 = 1 / alphaSum L state trans 0 := by
        rw [fbScale_zero]
        rfl
      have hP : scaleProd L state trans 0 = 1 / alphaSum L state trans 0 := by
        unfold scaleProd
        rw [Finset.prod_range_one, hs]
      refine ⟨?_, hP, ?_⟩
      · intro y
        rw [fbAlpha_zero, hP, hs]
        rfl
      · rw [hs]
        exact div_pos one_pos (alphaSum_pos L state trans hL 0)
  | succ t ih =>
      obtain ⟨ha, hP, _⟩ := ih
      have hraw : ∀ y,
          (∑ yp in Finset.range L, fbAlpha L state trans t yp * Real.exp (trans yp y))
              * Real.exp (state (t + 1) y)
            = alphaU L state trans (t + 1) y * scaleProd L state trans t := by
        intro y
        have : (∑ yp in Finset.range L, fbAlpha L state trans t yp * Real.exp (trans yp y))
            = (∑ yp in Finset.range L, alphaU L state trans t yp * Real.exp (trans yp y))
              * scaleProd L state trans t := by
          rw [Finset.sum_mul]
          apply Finset.sum_congr rfl
          intro yp _
          rw [ha yp]
          ring
        rw [this, alphaU_succ_eq]
        ring
      have hsum : (∑ y in Finset.range L,
            (∑ yp in Finset.range L, fbAlpha L state trans t yp * Real.exp (trans yp y))
              * Real.exp (state (t + 1) y))
          = alphaSum L state trans (t + 1) * scaleProd L state trans t := by
        unfold alphaSum
        rw [Finset.sum_mul]
        exact Finset.sum_congr rfl (fun y _ => hraw y)
      have hSpos := alphaSum_pos L state trans hL (t + 1)
      have hStpos := alphaSum_pos L state trans hL t
      have hPpos : 0 < scaleProd L state trans t := by
        rw [hP]
        exact div_pos one_pos hStpos
      have hne : alphaSum L state trans (t + 1) * scaleProd L state trans t ≠ 0 :=
        (mul_pos hSpos hPpos).ne'
      have hsc : fbScale L state trans (t + 1)
          = 1 / (alphaSum L state trans (t + 1) * scaleProd L state trans t) := by
        rw [fbScale_succ, hsum, if_neg hne]
      have hscpos : 0 < fbScale L state trans (t + 1) := by
        rw [hsc]
        exact div_pos one_pos (mul_pos hSpos hPpos)
      have hPsucc : scaleProd L state trans (t + 1) = 1 / alphaSum L state trans (t + 1) := by
        unfold scaleProd
        rw [Finset.prod_range_succ]
        have : (∏ s in Finset.range (t + 1), fbScale L state trans s)
            = scaleProd L state trans t := rfl
        rw [this, hsc, hP]
        field_simp
      refine ⟨?_, hPsucc, hscpos⟩
      intro y
      rw [fbAlpha_succ, hraw y, hsc, hPsucc, hP]
      have h1 : alphaSum L state trans t ≠ 0 := hStpos.ne'
      have h2 : alphaSum L state trans (t + 1) ≠ 0 := hSpos.ne'
      field_simp

lemma fbScale_pos (L : ℕ) (state trans : ℕ → ℕ → ℝ) (hL : 1 ≤ L) (t : ℕ) :
    0 < fbScale L state trans t := (fb_scaled L state trans hL t).2.2

/-- LogZ over positions 0..t equals the log of the unscaled forward row sum
at t. -/
lemma fbLogZ_succ (L : ℕ) (state trans : ℕ → ℕ → ℝ) (hL : 1 ≤ L) (t : ℕ) :
    fbLogZ (t + 1) L state trans = Real.log (alphaSum L state trans t) := by
  unfold fbLogZ
  have hlog : (∑ s in Finset.range (t + 1), Real.log (fbScale L state trans s))
      = Real.log (∏ s in Finset.range (t + 1), fbScale L state trans s) := by
    rw [Real.log_prod _ _ (fun s _ => (fbScale_pos L state trans hL s).ne')]
  rw [hlog]
  have hprod : (∏ s in Finset.range (t + 1), fbScale L state trans s)
      = 1 / alphaSum L state trans t := (fb_scaled L state trans hL t).2.1
  rw [hprod, one_div, Real.log_inv, neg_neg]

/-! ### Backward recursion and marginal normalization -/

lemma betaU_succ_eq (T L : ℕ) (state trans : ℕ → ℕ → ℝ) (k y : ℕ) :
    betaU T L state trans (k + 1) y
      = ∑ yn in Finset.range L,
          Real.exp (trans y yn) * Real.exp (state (T - 1 - k) yn)
            * betaU T L state trans k yn := rfl

lemma fbBetaAux_eq (T L : ℕ) (state trans : ℕ → ℕ → ℝ) (k : ℕ) (y : ℕ) :
    fbBetaAux T L state trans k y
      = betaU T L state trans k y * scaleProdBack T L state trans k := by
  induction k generalizing y with
  | zero =>
      unfold fbBetaAux betaU scaleProdBack
      rw [Finset.prod_range_one]
      simp
  | succ k ih =>
      unfold fbBetaAux
      rw [betaU_succ_eq]
      have hsum : (∑ yn in Finset.range L,
            Real.exp (trans y yn) * Real.exp (state (T - 1 - k) yn)
              * fbBetaAux T L state trans k yn)
          = (∑ yn in Finset.range L,
              Real.exp (trans y yn) * Real.exp (state (T - 1 - k) yn)
                * betaU T L state trans k yn) * scaleProdBack T L state trans k := by
        rw [Finset.sum_mul]
        apply Finset.sum_congr rfl
        intro yn _
        rw [ih yn]
        ring
      rw [hsum]
      have hQ : scaleProdBack T L state trans (k + 1)
          = scaleProdBack T L state trans k * fbScale L state trans (T - 2 - k) := by
        unfold scaleProdBack
        rw [Finset.prod_range_succ]
        have : T - 1 - (k + 1) = T - 2 - k := by omega
        rw [this]
      rw [hQ]
      ring

lemma alphaU_betaU_sum (L : ℕ) (state trans : ℕ → ℕ → ℝ) (hL : 1 ≤ L) (t : ℕ) :
    ∀ k, k ≤ t →
      (∑ y in Finset.range L,
          alphaU L state trans (t - k) y * betaU (t + 1) L state trans k y)
        = alphaSum L state trans t := by
  intro k
  induction k with
  | zero =>
      intro _
      unfold betaU alphaSum
      simp
  | succ k ih =>
      intro hk
      have hk' : k ≤ t := by omega
      rw [← ih hk']
      have hidx : (t + 1) - 1 - k = t - k := rfl
      have hswap : (∑ y in Finset.range L,
            alphaU L state trans (t - (k + 1)) y * betaU (t + 1) L state trans (k + 1) y)
          = ∑ yn in Finset.range L,
              (∑ y in Finset.range L,
                alphaU L state trans (t - (k + 1)) y * Real.exp (trans y yn))
                * Real.exp (state (t - k) yn) * betaU (t + 1) L state trans k yn := by
        have h1 : ∀ y, alphaU L state trans (t - (k + 1)) y
              * betaU (t + 1) L state trans (k + 1) y
            = ∑ yn in Finset.range L,
                alphaU L state trans (t - (k + 1)) y * Real.exp (trans y yn)
                  * Real.exp (state (t - k) yn) * betaU (t + 1) L state trans k yn := by
          intro y
          rw [betaU_succ_eq, hidx, Finset.mul_sum]
          apply Finset.sum_congr rfl
          intro yn _
          ring
        rw [Finset.sum_congr rfl (fun y _ => h1 y), Finset.sum_comm]
        apply Finset.sum_congr rfl
        intro yn _
        rw [Finset.sum_mul, Finset.sum_mul]
      rw [hswap]
      apply Finset.sum_congr rfl
      intro yn _
      have hsucc : t - k = (t - (k + 1)) + 1 := by omega
      rw [hsucc, alphaU_succ_eq]

lemma scaleProd_split (L : ℕ) (state trans : ℕ → ℕ → ℝ) (t s : ℕ) (hs : s ≤ t) :
    scaleProd L state trans s * scaleProdBack (t + 1) L state trans (t - s)
      = fbScale L state trans s * scaleProd L state trans t := by
  have hQ : scaleProdBack (t + 1) L state trans (t - s)
      = ∏ i in Finset.range (t - s + 1), fbScale L state trans (s + i) := by
    unfold scaleProdBack
    have h1 : ∀ j ∈ Finset.range (t - s + 1),
        fbScale L state trans ((t + 1) - 1 - j)
          = fbScale L state trans (s + (t - s + 1 - 1 - j)) := by
      intro j hj
      rw [Finset.mem_range] at hj
      have : (t + 1) - 1 - j = s + (t - s + 1 - 1 - j) := by omega
      rw [this]
    rw [Finset.prod_congr rfl h1,
      Finset.prod_range_reflect (fun i => fbScale L state trans (s + i)) (t - s + 1)]
  have hT : scaleProd L state trans t
      = (∏ i in Finset.range s, fbScale L state trans i)
        * ∏ i in Finset.range (t - s + 1), fbScale L state trans (s + i) := by
    unfold scaleProd
    have : t + 1 = s + (t - s + 1) := by omega
    rw [this, Finset.prod_range_add]
  have hS : scaleProd L state trans s
      = (∏ i in Finset.range s, fbScale L state trans i) * fbScale L state trans s := by
    unfold scaleProd
    rw [Finset.prod_range_succ]
  rw [hQ, hT, hS]
  ring

/-- Sum of the marginals of any position s ≤ t over a sequence of length
t+1. -/
lemma marginal_sum (L : ℕ) (state trans : ℕ → ℕ → ℝ) (hL : 1 ≤ L) (t s : ℕ) (hs : s ≤ t) :
    ∑ y in Finset.range L, fbMarginal (t + 1) L state trans s y = 1 := by
  obtain ⟨ha, hP, _⟩ := fb_scaled L state trans hL s
  have hSpos := alphaSum_pos L state trans hL t
  have hscpos := fbScale_pos L state trans hL s
  have hPt : scaleProd L state trans t = 1 / alphaSum L state trans t :=
    (fb_scaled L state trans hL t).2.1
  have hterm : ∀ y, fbMarginal (t + 1) L state trans s y
      = (alphaU L state trans s y * betaU (t + 1) L state trans (t - s) y)
        * (scaleProd L state trans s * scaleProdBack (t + 1) L state trans (t - s)
            / fbScale L state trans s) := by
    intro y
    simp only [fbMarginal, fbBeta, Nat.add_sub_cancel]
    rw [ha y, fbBetaAux_eq]
    ring
  rw [Finset.sum_congr rfl (fun y _ => hterm y), ← Finset.sum_mul]
  have hcross : (∑ y in Finset.range L,
        alphaU L state trans s y * betaU (t + 1) L state trans (t - s) y)
      = alphaSum L state trans t := by
    have hk : t - (t - s) = s := by omega
    have := alphaU_betaU_sum L state trans hL t (t - s) (by omega)
    rwa [hk] at this
  rw [hcross, scaleProd_split L state trans t s hs, hPt]
  field_simp

/-- Claim C2: for a non-empty state-score matrix (T at least 1, L at least 1)
the marginals of every position sum to exactly 1 over the reals (hence within
1e-6 in floating point, as the specification states). -/
theorem C2_marginals_sum_one (T L : ℕ) (state trans : ℕ → ℕ → ℝ)
    (hT : 1 ≤ T) (hL : 1 ≤ L) (t : ℕ) (ht : t < T) :
    ∑ y in Finset.range L, (ForwardBackward T L state trans).marginals t y = 1 := by
  obtain ⟨tp, rfl⟩ : ∃ tp, T = tp + 1 := ⟨T - 1, by omega⟩
  simp only [ForwardBackward, if_neg (Nat.succ_ne_zero tp)]
  exact marginal_sum L state trans hL tp t (by omega)

/-- Witness for claim C2 at T = 1, L = 1 and the zero score matrices. -/
theorem C2_marginals_sum_one_witness :
    ∑ y in Finset.range 1,
      (ForwardBackward 1 1 (fun _ _ => 0) (fun _ _ => 0)).marginals 0 y = 1 :=
  C2_marginals_sum_one 1 1 (fun _ _ => 0) (fun _ _ => 0) le_rfl le_rfl 0 one_pos

/-! ### Forward recursion against the brute-force path sum -/

lemma sum_snoc {L : ℕ} (n : ℕ) (F : (Fin (n + 1) → Fin L) → ℝ) :
    ∑ p : Fin (n + 1) → Fin L, F p
      = ∑ z : Fin L, ∑ q : Fin n → Fin L, F (Fin.snoc q z) := by
  rw [← (Fin.insertNthEquiv (fun _ => Fin L) (Fin.last n)).sum_comp, Fintype.sum_prod_type]
  refine Finset.sum_congr rfl (fun z _ => Finset.sum_congr rfl (fun q _ => ?_))
  congr 1
  exact Fin.insertNth_last' z q

lemma sum_fiber {L n : ℕ} (j : Fin n) (F : (Fin n → Fin L) → ℝ) :
    ∑ p : Fin n → Fin L, F p
      = ∑ y in Finset.range L, ∑ p : Fin n → Fin L,
          (if (p j).1 = y then F p else 0) := by
  rw [Finset.sum_comm]
  apply Finset.sum_congr rfl
  intro p _
  rw [Finset.sum_ite_eq (Finset.range L) ((p j).1) (fun _ => F p),
    if_pos (Finset.mem_range.mpr (p j).2)]

lemma pathScoreF_one {L : ℕ} (state trans : ℕ → ℕ → ℝ) (p : Fin 1 → Fin L) :
    pathScoreF state trans p = state 0 (p 0).1 := by
  unfold pathScoreF
  rw [Fin.sum_univ_one]
  simp

lemma snoc_mk_lt {L n : ℕ} (q : Fin (n + 1) → Fin L) (z : Fin L) (v : ℕ)
    (h : v < n + 1) (h2 : v < n + 2) :
    (Fin.snoc q z : Fin (n + 2) → Fin L) ⟨v, h2⟩ = q ⟨v, h⟩ := by
  have he : (⟨v, h2⟩ : Fin (n + 2)) = Fin.castSucc ⟨v, h⟩ := rfl
  rw [he, Fin.snoc_castSucc]

lemma snoc_mk_last {L n : ℕ} (q : Fin (n + 1) → Fin L) (z : Fin L) (h2 : n + 1 < n + 2) :
    (Fin.snoc q z : Fin (n + 2) → Fin L) ⟨n + 1, h2⟩ = z := by
  have he : (⟨n + 1, h2⟩ : Fin (n + 2)) = Fin.last (n + 1) := rfl
  rw [he, Fin.snoc_last]

lemma pathScoreF_snoc {L : ℕ} (state trans : ℕ → ℕ → ℝ) (n : ℕ)
    (q : Fin (n + 1) → Fin L) (z : Fin L) :
    pathScoreF state trans (Fin.snoc q z : Fin (n + 2) → Fin L)
      = pathScoreF state trans q + trans (q (Fin.last n)).1 z.1 + state (n + 1) z.1 := by
  have hstate : (∑ t : Fin (n + 2), state t.1 ((Fin.snoc q z : Fin (n + 2) → Fin L) t).1)
      = (∑ t : Fin (n + 1), state t.1 (q t).1) + state (n + 1) z.1 := by
    rw [Fin.sum_univ_castSucc]
    congr 1
    · apply Finset.sum_congr rfl
      intro t _
      rw [Fin.snoc_castSucc]
      rfl
    · rw [Fin.snoc_last]
      rfl
  have htrans : (∑ t : Fin (n + 1),
        trans ((Fin.snoc q z : Fin (n + 2) → Fin L)
            ⟨t.1, Nat.lt_succ_of_lt t.2⟩).1
          ((Fin.snoc q z : Fin (n + 2) → Fin L) ⟨t.1 + 1, Nat.succ_lt_succ t.2⟩).1)
      = (∑ t : Fin n,
          trans (q ⟨t.1, Nat.lt_succ_of_lt t.2⟩).1 (q ⟨t.1 + 1, Nat.succ_lt_succ t.2⟩).1)
        + trans (q (Fin.last n)).1 z.1 := by
    rw [Fin.sum_univ_castSucc]
    congr 1
    · apply Finset.sum_congr rfl
      intro t _
      rw [snoc_mk_lt q z (Fin.castSucc t).1
          (Nat.lt_succ_of_lt t.2) (Nat.lt_succ_of_lt (Nat.lt_succ_of_lt t.2)),
        snoc_mk_lt q z ((Fin.castSucc t).1 + 1)
          (Nat.succ_lt_succ t.2) (Nat.lt_succ_of_lt (Nat.succ_lt_succ t.2))]
      rfl
    · rw [snoc_mk_lt q z (Fin.last n).1
          (Fin.last n).2 (Nat.lt_succ_of_lt (Fin.last n).2)]
      have h3 : (⟨(Fin.last n).1 + 1, Nat.succ_lt_succ (Fin.last n).2⟩ : Fin (n + 2))
          = Fin.last (n + 1) := rfl
      rw [h3, Fin.snoc_last]
  calc pathScoreF state trans (Fin.snoc q z : Fin (n + 2) → Fin L)
      = (∑ t : Fin (n + 2), state t.1 ((Fin.snoc q z : Fin (n + 2) → Fin L) t).1)
        + (∑ t : Fin (n + 1),
            trans ((Fin.snoc q z : Fin (n + 2) → Fin L)
                ⟨t.1, Nat.lt_succ_of_lt t.2⟩).1
              ((Fin.snoc q z : Fin (n + 2) → Fin L) ⟨t.1 + 1, Nat.succ_lt_succ t.2⟩).1) :=
        rfl
    _ = ((∑ t : Fin (n + 1), state t.1 (q t).1) + state (n + 1) z.1)
        + ((∑ t : Fin n,
            trans (q ⟨t.1, Nat.lt_succ_of_lt t.2⟩).1 (q ⟨t.1 + 1, Nat.succ_lt_succ t.2⟩).1)
          + trans (q (Fin.last n)).1 z.1) := by rw [hstate, htrans]
    _ = pathScoreF state trans q + trans (q (Fin.last n)).1 z.1 + state (n + 1) z.1 := by
        have hq : pathScoreF state trans q
            = (∑ t : Fin (n + 1), state t.1 (q t).1)
              + ∑ t : Fin n,
                  trans (q ⟨t.1, Nat.lt_succ_of_lt t.2⟩).1
                    (q ⟨t.1 + 1, Nat.succ_lt_succ t.2⟩).1 := rfl
        rw [hq]
        ring

lemma alphaU_brute (L : ℕ) (state trans : ℕ → ℕ → ℝ) (hL : 1 ≤ L) :
    ∀ t y, y < L →
      alphaU L state trans t y
        = ∑ p : Fin (t + 1) → Fin L,
            (if (p (Fin.last t)).1 = y then Real.exp (pathScoreF state trans p) else 0) := by
  intro t
  induction t with
  | zero =>
      intro y hy
      rw [← (Equiv.funUnique (Fin 1) (Fin L)).symm.sum_comp]
      have hz : ∀ z : Fin L,
          (if (((Equiv.funUnique (Fin 1) (Fin L)).symm z) (Fin.last 0)).1 = y then
            Real.exp (pathScoreF state trans ((Equiv.funUnique (Fin 1) (Fin L)).symm z))
          else 0)
          = (fun v => if v = y then Real.exp (state 0 v) else 0) z.1 := by
        intro z
        have h1 : ((Equiv.funUnique (Fin 1) (Fin L)).symm z) = fun _ => z := rfl
        rw [h1, pathScoreF_one]
      rw [Finset.sum_congr rfl (fun z _ => hz z),
        Fin.sum_univ_eq_sum_range (fun v => if v = y then Real.exp (state 0 v) else 0) L,
        Finset.sum_ite_eq' (Finset.range L) y (fun v => Real.exp (state 0 v)),
        if_pos (Finset.mem_range.mpr hy)]
      rfl
  | succ n ih =>
      intro y hy
      rw [sum_snoc (n + 1) (fun p =>
        if (p (Fin.last (n + 1))).1 = y then Real.exp (pathScoreF state trans p) else 0)]
      have hz : ∀ z : Fin L,
          (∑ q : Fin (n + 1) → Fin L,
            (if ((Fin.snoc q z : Fin (n + 2) → Fin L) (Fin.last (n + 1))).1 = y then
              Real.exp (pathScoreF state trans (Fin.snoc q z : Fin (n + 2) → Fin L))
            else 0))
          = (fun v => if v = y then
              (∑ q : Fin (n + 1) → Fin L,
                Real.exp (pathScoreF state trans q) * Real.exp (trans (q (Fin.last n)).1 v))
                * Real.exp (state (n + 1) v)
            else 0) z.1 := by
        intro z
        by_cases hzy : z.1 = y
        · simp only [Fin.snoc_last, hzy, if_pos rfl]
          rw [Finset.sum_mul]
          apply Finset.sum_congr rfl
          intro q _
          rw [pathScoreF_snoc, Real.exp_add, Real.exp_add, hzy]
          simp
        · simp only [Fin.snoc_last, hzy, if_neg hzy]
          simp
      rw [Finset.sum_congr rfl (fun z _ => hz z),
        Fin.sum_univ_eq_sum_range (fun v => if v = y then
            (∑ q : Fin (n + 1) → Fin L,
              Real.exp (pathScoreF state trans q) * Real.exp (trans (q (Fin.last n)).1 v))
              * Real.exp (state (n + 1) v)
          else 0) L,
        Finset.sum_ite_eq' (Finset.range L) y _,
        if_pos (Finset.mem_range.mpr hy)]
      rw [sum_fiber (Fin.last n) (fun q =>
        Real.exp (pathScoreF state trans q) * Real.exp (trans (q (Fin.last n)).1 y))]
      rw [alphaU_succ_eq]
      apply congrArg (fun r => r * Real.exp (state (n + 1) y))
      apply Finset.sum_congr rfl
      intro yp hyp
      have hinner : (∑ q : Fin (n + 1) → Fin L,
            (if (q (Fin.last n)).1 = yp then
              Real.exp (pathScoreF state trans q) * Real.exp (trans (q (Fin.last n)).1 y)
            else 0))
          = (∑ q : Fin (n + 1) → Fin L,
              (if (q (Fin.last n)).1 = yp then Real.exp (pathScoreF state trans q) else 0))
            * Real.exp (trans yp y) := by
        rw [Finset.sum_mul]
        apply Finset.sum_congr rfl
        intro q _
        by_cases hq : (q (Fin.last n)).1 = yp
        · rw [if_pos hq, if_pos hq, hq]
        · rw [if_neg hq, if_neg hq, zero_mul]
      rw [hinner, ← ih yp (Finset.mem_range.mp hyp)]

lemma alphaSum_brute (L : ℕ) (state trans : ℕ → ℕ → ℝ) (hL : 1 ≤ L) (t : ℕ) :
    alphaSum L state trans t = bruteZ (t + 1) L state trans := by
  unfold alphaSum bruteZ
  rw [sum_fiber (Fin.last t) (fun p => Real.exp (pathScoreF state trans p))]
  apply Finset.sum_congr rfl
  intro y hy
  rw [alphaU_brute L state trans hL t y (Finset.mem_range.mp hy)]

/-- Claim C1: for sequences of 1 to 3 positions and 1 to 3 labels (the proof
holds for any positive sizes), the LogZ of the scaled forward-backward run
equals the log of the brute-force sum, over all label paths, of exp of the
path score — exactly over the reals, hence within 1e-6 in floating point as
the specification states. -/
theorem C1_logZ_brute (T L : ℕ) (state trans : ℕ → ℕ → ℝ)
    (hT1 : 1 ≤ T) (hT3 : T ≤ 3) (hL1 : 1 ≤ L) (hL3 : L ≤ 3) :
    (ForwardBackward T L state trans).logZ = Real.log (bruteZ T L state trans) := by
  obtain ⟨t, rfl⟩ : ∃ t, T = t + 1 := ⟨T - 1, by omega⟩
  simp only [ForwardBackward, if_neg (Nat.succ_ne_zero t)]
  rw [fbLogZ_succ L state trans hL1 t, alphaSum_brute L state trans hL1 t]

/-- Witness for claim C1 at T = 1, L = 1 and the zero score matrices. -/
theorem C1_logZ_brute_witness :
    (ForwardBackward 1 1 (fun _ _ => 0) (fun _ _ => 0)).logZ
      = Real.log (bruteZ 1 1 (fun _ _ => 0) (fun _ _ => 0)) :=
  C1_logZ_brute 1 1 (fun _ _ => 0) (fun _ _ => 0) le_rfl (by norm_num) le_rfl (by norm_num)

/-! ### The scan keeps the maximum and its first index -/

lemma argmaxScan_spec (f : ℕ → ℝ) :
    ∀ L, 1 ≤ L →
      ∃ M i, argmaxScan L f = some (M, i) ∧ i < L ∧ f i = M
        ∧ (∀ y, y < L → f y ≤ M) ∧ (∀ y, y < i → f y < M) := by
  intro L
  induction L with
  | zero => omega
  | succ L ih =>
      intro _
      by_cases hL : 1 ≤ L
      · obtain ⟨M, i, heq, hi, hfi, hub, hstrict⟩ := ih hL
        have hfold : argmaxScan (L + 1) f = scanStep f (argmaxScan L f) L := by
          unfold argmaxScan
          rw [List.range_succ, List.foldl_append]
          rfl
        rw [heq] at hfold
        by_cases hgt : f L > M
        · refine ⟨f L, L, ?_, Nat.lt_succ_self L, rfl, ?_, ?_⟩
          · rw [hfold]
            simp [scanStep, hgt]
          · intro y hy
            rcases Nat.lt_succ_iff_lt_or_eq.mp hy with h | h
            · exact le_of_lt (lt_of_le_of_lt (hub y h) hgt)
            · subst h
              exact le_rfl
          · intro y hy
            exact lt_of_le_of_lt (hub y hy) hgt
        · refine ⟨M, i, ?_, Nat.lt_succ_of_lt hi, hfi, ?_, hstrict⟩
          · rw [hfold]
            simp [scanStep, hgt]
          · intro y hy
            rcases Nat.lt_succ_iff_lt_or_eq.mp hy with h | h
            · exact hub y h
            · subst h
              exact not_lt.mp hgt
      · have hL0 : L = 0 := by omega
        subst hL0
        refine ⟨f 0, 0, ?_, Nat.lt_succ_self 0, rfl, ?_, ?_⟩
        · unfold argmaxScan
          rw [List.range_succ, List.range_zero, List.nil_append]
          rfl
        · intro y hy
          have : y = 0 := by omega
          subst this
          exact le_rfl
        · intro y hy
          omega

/-! ### Viterbi recursion facts -/

lemma viterbi_step_spec (L : ℕ) (state trans : ℕ → ℕ → ℝ) (hL : 1 ≤ L) (t y : ℕ) :
    viterbiPsi L state trans (t + 1) y < L
    ∧ viterbiDelta L state trans (t + 1) y
        = (viterbiDelta L state trans t (viterbiPsi L state trans (t + 1) y)
            + trans (viterbiPsi L state trans (t + 1) y) y) + state (t + 1) y
    ∧ (∀ yp, yp < L →
        viterbiDelta L state trans t yp + trans yp y
          ≤ viterbiDelta L state trans t (viterbiPsi L state trans (t + 1) y)
              + trans (viterbiPsi L state trans (t + 1) y) y)
    ∧ (∀ yp, yp < viterbiPsi L state trans (t + 1) y →
        viterbiDelta L state trans t yp + trans yp y
          < viterbiDelta L state trans t (viterbiPsi L state trans (t + 1) y)
              + trans (viterbiPsi L state trans (t + 1) y) y) := by
  obtain ⟨M, i, heq, hi, hfi, hub, hstrict⟩ :=
    argmaxScan_spec (fun yp => viterbiDelta L state trans t yp + trans yp y) L hL
  have hpsi : viterbiPsi L state trans (t + 1) y = i := by
    show ((argmaxScan L
        (fun yp => viterbiDelta L state trans t yp + trans yp y)).getD (0, 0)).2 = i
    rw [heq]
    rfl
  have hdelta : viterbiDelta L state trans (t + 1) y = M + state (t + 1) y := by
    show ((argmaxScan L
        (fun yp => viterbiDelta L state trans t yp + trans yp y)).getD (0, 0)).1
          + state (t + 1) y = M + state (t + 1) y
    rw [heq]
    rfl
  rw [hpsi, hfi]
  exact ⟨hi, by rw [hdelta], fun yp hyp => hub yp hyp, fun yp hyp => hstrict yp hyp⟩

lemma viterbi_final_spec (t0 L : ℕ) (state trans : ℕ → ℕ → ℝ) (hL : 1 ≤ L) :
    (Viterbi (t0 + 1) L state trans).1 t0 < L
    ∧ viterbiDelta L state trans t0 ((Viterbi (t0 + 1) L state trans).1 t0)
        = (Viterbi (t0 + 1) L state trans).2
    ∧ (∀ y, y < L → viterbiDelta L state trans t0 y ≤ (Viterbi (t0 + 1) L state trans).2)
    ∧ (∀ y, y < (Viterbi (t0 + 1) L state trans).1 t0 →
        viterbiDelta L state trans t0 y < (Viterbi (t0 + 1) L state trans).2) := by
  obtain ⟨M, i, heq, hi, hfi, hub, hstrict⟩ :=
    argmaxScan_spec (fun y => viterbiDelta L state trans t0 y) L hL
  have hpath : (Viterbi (t0 + 1) L state trans).1 t0 = i := by
    show viterbiPathAux (t0 + 1) L state trans (t0 + 1 - 1 - t0) = i
    have hidx : t0 + 1 - 1 - t0 = 0 := by omega
    rw [hidx]
    show ((argmaxScan L
        (fun y => viterbiDelta L state trans (t0 + 1 - 1) y)).getD (0, 0)).2 = i
    rw [show (t0 + 1 - 1 : ℕ) = t0 from rfl, heq]
    rfl
  have hscore : (Viterbi (t0 + 1) L state trans).2 = M := by
    show ((argmaxScan L
        (fun y => viterbiDelta L state trans (t0 + 1 - 1) y)).getD (0, 0)).1 = M
    rw [show (t0 + 1 - 1 : ℕ) = t0 from rfl, heq]
    rfl
  rw [hpath, hscore]
  exact ⟨hi, hfi, hub, hstrict⟩

lemma viterbi_path_rec (t0 L : ℕ) (state trans : ℕ → ℕ → ℝ) (t : ℕ) (ht : t + 1 ≤ t0) :
    (Viterbi (t0 + 1) L state trans).1 t
      = viterbiPsi L state trans (t + 1) ((Viterbi (t0 + 1) L state trans).1 (t + 1)) := by
  show viterbiPathAux (t0 + 1) L state trans (t0 + 1 - 1 - t)
      = viterbiPsi L state trans (t + 1)
          (viterbiPathAux (t0 + 1) L state trans (t0 + 1 - 1 - (t + 1)))
  have h1 : t0 + 1 - 1 - t = (t0 - 1 - t) + 1 := by omega
  rw [h1]
  show viterbiPsi L state trans (t0 + 1 - 1 - (t0 - 1 - t))
      (viterbiPathAux (t0 + 1) L state trans (t0 - 1 - t))
    = viterbiPsi L state trans (t + 1)
        (viterbiPathAux (t0 + 1) L state trans (t0 + 1 - 1 - (t + 1)))
  have h2 : t0 + 1 - 1 - (t0 - 1 - t) = t + 1 := by omega
  have h3 : t0 - 1 - t = t0 + 1 - 1 - (t + 1) := by omega
  rw [h2, h3]

lemma pathScoreN_one (state trans : ℕ → ℕ → ℝ) (p : ℕ → ℕ) :
    pathScoreN 1 state trans p = state 0 (p 0) := by
  unfold pathScoreN
  simp

lemma pathScoreN_step (state trans : ℕ → ℕ → ℝ) (t : ℕ) (p : ℕ → ℕ) :
    pathScoreN (t + 2) state trans p
      = pathScoreN (t + 1) state trans p + trans (p t) (p (t + 1))
        + state (t + 1) (p (t + 1)) := by
  unfold pathScoreN
  rw [show ((t + 2 - 1) : ℕ) = t + 1 from rfl, show ((t + 1 - 1) : ℕ) = t from rfl,
    Finset.sum_range_succ, Finset.sum_range_succ (fun s => trans (p s) (p (s + 1))) t]
  ring

/-- Every bounded prefix path scores at most the Viterbi table entry of its
final label. -/
lemma prefix_le_delta (L : ℕ) (state trans : ℕ → ℕ → ℝ) (hL : 1 ≤ L) :
    ∀ t (p : ℕ → ℕ), (∀ s, s ≤ t → p s < L) →
      pathScoreN (t + 1) state trans p ≤ viterbiDelta L state trans t (p t) := by
  intro t
  induction t with
  | zero =>
      intro p _
      rw [pathScoreN_one]
      exact le_rfl
  | succ t ih =>
      intro p hp
      obtain ⟨hpsi, hdelta, hub, _⟩ := viterbi_step_spec L state trans hL t (p (t + 1))
      rw [pathScoreN_step, hdelta]
      have h1 : pathScoreN (t + 1) state trans p ≤ viterbiDelta L state trans t (p t) :=
        ih p (fun s hs => hp s (by omega))
      have h2 := hub (p t) (hp t (by omega))
      linarith

lemma viterbi_path_lt (t0 L : ℕ) (state trans : ℕ → ℕ → ℝ) (hL : 1 ≤ L) :
    ∀ t, t ≤ t0 → (Viterbi (t0 + 1) L state trans).1 t < L := by
  intro t ht
  by_cases hte : t = t0
  · subst hte
    exact (viterbi_final_spec t L state trans hL).1
  · rw [viterbi_path_rec t0 L state trans t (by omega)]
    exact (viterbi_step_spec L state trans hL t _).1

lemma viterbi_path_pref (t0 L : ℕ) (state trans : ℕ → ℕ → ℝ) (hL : 1 ≤ L) :
    ∀ t, t ≤ t0 →
      pathScoreN (t + 1) state trans ((Viterbi (t0 + 1) L state trans).1)
        = viterbiDelta L state trans t ((Viterbi (t0 + 1) L state trans).1 t) := by
  intro t
  induction t with
  | zero =>
      intro _
      rw [pathScoreN_one]
      rfl
  | succ t ih =>
      intro ht
      rw [pathScoreN_step, ih (by omega)]
      have hrec := viterbi_path_rec t0 L state trans t (by omega)
      obtain ⟨_, hdelta, _, _⟩ :=
        viterbi_step_spec L state trans hL t ((Viterbi (t0 + 1) L state trans).1 (t + 1))
      rw [hrec, hdelta]

lemma viterbi_attains (t0 L : ℕ) (state trans : ℕ → ℕ → ℝ) (hL : 1 ≤ L) :
    pathScoreN (t0 + 1) state trans ((Viterbi (t0 + 1) L state trans).1)
      = (Viterbi (t0 + 1) L state trans).2 := by
  rw [viterbi_path_pref t0 L state trans hL t0 le_rfl,
    (viterbi_final_spec t0 L state trans hL).2.1]

lemma viterbi_max (t0 L : ℕ) (state trans : ℕ → ℕ → ℝ) (hL : 1 ≤ L)
    (p : ℕ → ℕ) (hp : ∀ t, t ≤ t0 → p t < L) :
    pathScoreN (t0 + 1) state trans p ≤ (Viterbi (t0 + 1) L state trans).2 := by
  have h1 := prefix_le_delta L state trans hL t0 p hp
  have h2 := (viterbi_final_spec t0 L state trans hL).2.2.1 (p t0) (hp t0 le_rfl)
  linarith

/-- Downward induction for the tie-breaking characterization: on the suffix
where the decoded path and any other optimal path agree, the other path is
tight against the Viterbi table, and at the first disagreement (scanning
from the end) the decoded path carries the smaller label. -/
lemma viterbi_tie_aux (t0 L : ℕ) (state trans : ℕ → ℕ → ℝ) (hL : 1 ≤ L)
    (p : ℕ → ℕ) (hp : ∀ t, t ≤ t0 → p t < L)
    (hopt : pathScoreN (t0 + 1) state trans p = (Viterbi (t0 + 1) L state trans).2) :
    ∀ k, k ≤ t0 →
      ((∀ s, t0 - k ≤ s → s ≤ t0 → (Viterbi (t0 + 1) L state trans).1 s = p s)
        ∧ pathScoreN ((t0 - k) + 1) state trans p
            = viterbiDelta L state trans (t0 - k) (p (t0 - k)))
      ∨ (∃ t, t0 - k ≤ t ∧ t ≤ t0 ∧ (Viterbi (t0 + 1) L state trans).1 t < p t
          ∧ ∀ s, t < s → s ≤ t0 → (Viterbi (t0 + 1) L state trans).1 s = p s) := by
  intro k
  induction k with
  | zero =>
      intro _
      obtain ⟨hyblt, hybscore, hub, hstrict⟩ := viterbi_final_spec t0 L state trans hL
      have hple := prefix_le_delta L state trans hL t0 p hp
      have hdub := hub (p t0) (hp t0 le_rfl)
      have heq1 : viterbiDelta L state trans t0 (p t0)
          = (Viterbi (t0 + 1) L state trans).2 := le_antisymm hdub (hopt ▸ hple)
      have htight : pathScoreN (t0 + 1) state trans p
          = viterbiDelta L state trans t0 (p t0) := by rw [hopt, heq1]
      have hge : (Viterbi (t0 + 1) L state trans).1 t0 ≤ p t0 := by
        by_contra hlt
        push_neg at hlt
        have := hstrict (p t0) hlt
        rw [heq1] at this
        exact lt_irrefl _ this
      rcases eq_or_lt_of_le hge with heq2 | hlt2
      · left
        refine ⟨?_, ?_⟩
        · intro s hs1 hs2
          have hseq : s = t0 := by omega
          subst hseq
          exact heq2
        · exact htight
      · right
        refine ⟨t0, by omega, le_rfl, hlt2, ?_⟩
        intro s hs1 hs2
        exact absurd (lt_of_lt_of_le hs1 hs2) (lt_irrefl t0)
  | succ k ihk =>
      intro hk1
      rcases ihk (by omega) with ⟨hagree, htight⟩ | hright
      · have hs0ge : 1 ≤ t0 - k := by omega
        have hs0t1 : t0 - k = (t0 - (k + 1)) + 1 := by omega
        have hps0 : (Viterbi (t0 + 1) L state trans).1 (t0 - k) = p (t0 - k) :=
          hagree (t0 - k) le_rfl (by omega)
        obtain ⟨hpsilt, hdelta, hub, hstrict⟩ :=
          viterbi_step_spec L state trans hL (t0 - (k + 1)) (p ((t0 - (k + 1)) + 1))
        rw [hs0t1, pathScoreN_step, hdelta] at htight
        have hple := prefix_le_delta L state trans hL (t0 - (k + 1)) p
          (fun s hs => hp s (by omega))
        have hfpt1 := hub (p (t0 - (k + 1))) (hp (t0 - (k + 1)) (by omega))
        have htight1 : pathScoreN ((t0 - (k + 1)) + 1) state trans p
            = viterbiDelta L state trans (t0 - (k + 1)) (p (t0 - (k + 1))) := by
          linarith
        have hfeq : viterbiDelta L state trans (t0 - (k + 1)) (p (t0 - (k + 1)))
              + trans (p (t0 - (k + 1))) (p ((t0 - (k + 1)) + 1))
            = viterbiDelta L state trans (t0 - (k + 1))
                (viterbiPsi L state trans ((t0 - (k + 1)) + 1) (p ((t0 - (k + 1)) + 1)))
              + trans (viterbiPsi L state trans ((t0 - (k + 1)) + 1) (p ((t0 - (k + 1)) + 1)))
                  (p ((t0 - (k + 1)) + 1)) := by
          linarith
        have hpath_t1 : (Viterbi (t0 + 1) L state trans).1 (t0 - (k + 1))
            = viterbiPsi L state trans ((t0 - (k + 1)) + 1) (p ((t0 - (k + 1)) + 1)) := by
          rw [viterbi_path_rec t0 L state trans (t0 - (k + 1)) (by omega)]
          rw [show (t0 - (k + 1)) + 1 = t0 - k from hs0t1.symm, hps0, hs0t1]
        have hge : viterbiPsi L state trans ((t0 - (k + 1)) + 1) (p ((t0 - (k + 1)) + 1))
            ≤ p (t0 - (k + 1)) := by
          by_contra hlt
          push_neg at hlt
          have := hstrict (p (t0 - (k + 1))) hlt
          linarith
        rcases eq_or_lt_of_le hge with heq2 | hlt2
        · left
          refine ⟨?_, htight1⟩
          intro s hs1 hs2
          by_cases hseq : s = t0 - (k + 1)
          · subst hseq
            rw [hpath_t1]
            exact heq2
          · exact hagree s (by omega) hs2
        · right
          refine ⟨t0 - (k + 1), le_rfl, by omega, by rw [hpath_t1]; exact hlt2, ?_⟩
          intro s hs1 hs2
          exact hagree s (by omega) hs2
      · obtain ⟨t, ht1, ht2, hlt, hag⟩ := hright
        exact Or.inr ⟨t, by omega, ht2, hlt, hag⟩

/-- Claim C3: for every T at least 1 and L at least 1, Viterbi returns a path
with labels below L whose score equals the returned score; the returned score
is the maximum path score over all L^T label paths; and any other maximizing
path first differs from the returned one (scanning from the last position) by
a strictly larger label — the strict-greater comparisons keep the earlier
candidate, so ties resolve to the first label index in iteration order. -/
theorem C3_viterbi_correct (T L : ℕ) (state trans : ℕ → ℕ → ℝ)
    (hT : 1 ≤ T) (hL : 1 ≤ L) :
    (∀ t, t < T → (Viterbi T L state trans).1 t < L)
    ∧ pathScoreN T state trans ((Viterbi T L state trans).1) = (Viterbi T L state trans).2
    ∧ (∀ p : ℕ → ℕ, (∀ t, t < T → p t < L) →
        pathScoreN T state trans p ≤ (Viterbi T L state trans).2)
    ∧ (∀ p : ℕ → ℕ, (∀ t, t < T → p t < L) →
        pathScoreN T state trans p = (Viterbi T L state trans).2 →
        (∀ t, t < T → (Viterbi T L state trans).1 t = p t)
        ∨ ∃ t, t < T ∧ (Viterbi T L state trans).1 t < p t
            ∧ ∀ s, t < s → s < T → (Viterbi T L state trans).1 s = p s) := by
  obtain ⟨t0, rfl⟩ : ∃ t0, T = t0 + 1 := ⟨T - 1, by omega⟩
  refine ⟨?_, viterbi_attains t0 L state trans hL, ?_, ?_⟩
  · intro t ht
    exact viterbi_path_lt t0 L state trans hL t (by omega)
  · intro p hp
    exact viterbi_max t0 L state trans hL p (fun t ht => hp t (by omega))
  · intro p hp hopt
    rcases viterbi_tie_aux t0 L state trans hL p (fun t ht => hp t (by omega)) hopt t0
        le_rfl with ⟨hagree, _⟩ | ⟨t, _, ht2, hlt, hag⟩
    · left
      intro t ht
      exact hagree t (by omega) (by omega)
    · right
      exact ⟨t, by omega, hlt, fun s hs1 hs2 => hag s hs1 (by omega)⟩

/-- Witness for claim C3 at T = 1, L = 1 and the zero score matrices: the
returned path attains the returned score. -/
theorem C3_viterbi_correct_witness :
    pathScoreN 1 (fun _ _ => 0) (fun _ _ => 0) ((Viterbi 1 1 (fun _ _ => 0) (fun _ _ => 0)).1)
      = (Viterbi 1 1 (fun _ _ => 0) (fun _ _ => 0)).2 :=
  (C3_viterbi_correct 1 1 (fun _ _ => 0) (fun _ _ => 0) le_rfl le_rfl).2.1

end Dit
